import Mathlib

/-!
# A shallow embedding of the `jarxorg/tree` query engine

This file embeds the canonical (latest) variants of the Go sources of the
`tree` repository — `node.go`, `value.go`, `util.go` and `query.go` — as
executable Lean definitions, and proves or refutes the specification claims
about the tokenizer, the query parser, the evaluator and the edit engine.

Modelling conventions, stated once here:

* A Go `Node` interface value may be `nil`; we model it as `Option Node`
  (`none` = the nil interface).  A non-nil node is the inductive `Node`
  below.  Go array elements and map values may store nil nodes, hence the
  `Option Node` payloads.
* Go `float64` (`NumberValue`) is modelled by exact rationals plus the IEEE
  specials NaN/±Inf (`NumV`).  The engine performs no arithmetic — numbers
  are only parsed from decimal literals and compared — and every numeric
  literal appearing in a theorem below is exactly representable, so the
  rational model agrees with `float64` on everything the theorems evaluate.
* Go `Map` is a hash map iterated in sorted key order (`Map.Keys` sorts).
  We represent a `Map` as an association list kept sorted by key (strictly
  ascending, hence keys unique); every map literal in this file and every
  map produced by `mapSetS` respects this invariant, so list equality
  coincides with Go `reflect.DeepEqual` on maps and iteration in list order
  coincides with Go's sorted iteration.
* `arrayHolder` (query.go) is the `Node.holder` constructor: a box around an
  array giving it reference semantics during `Edit`.
* Error returns are `Except String`; a Go runtime panic (method call on a
  nil interface, slice bounds violation) is modelled as an `Except.error`
  whose message starts with `runtime panic`.  No theorem below depends on
  such a branch.
-/

set_option maxHeartbeats 1000000
set_option maxRecDepth 8000

namespace tree

/-- `NumberValue` (value.go): Go `float64`, modelled as an exact rational or
an IEEE special value.  See the conventions in the file header. -/
inductive NumV where
  | fin (x : Rat)
  | nan
  | inf
  | ninf
deriving Repr, DecidableEq

/-- The `Node` data model (node.go, canonical variant): `Array`, `Map`,
`StringValue`, `BoolValue`, `NumberValue`, `NilValue`, plus the
`arrayHolder` box used by the edit engine (query.go).  Array elements and
map values are `Option Node` because Go interface values may be nil. -/
inductive Node where
  | array (xs : List (Option Node))
  | holder (xs : List (Option Node))
  | map (es : List (String × Option Node))
  | str (s : String)
  | bool (b : Bool)
  | num (x : NumV)
  | nil

/-- The `Value` view of a node (value.go): `StringValue`, `BoolValue`,
`NumberValue` or `NilValue`. -/
inductive Value where
  | str (s : String)
  | bool (b : Bool)
  | num (x : NumV)
  | nil
deriving Repr, DecidableEq

/-- `Node.Value()` (node.go): a primitive returns itself, `Array`, `Map` and
`arrayHolder` return the `Nil` value. -/
def Node.value : Node → Value
  | .str s => .str s
  | .bool b => .bool b
  | .num x => .num x
  | .nil => .nil
  | .array _ => .nil
  | .holder _ => .nil
  | .map _ => .nil

/-- `Type().IsValue()` (node.go): true exactly for the four primitive value
kinds (`TypeValue` bit set, which includes `TypeNilValue`). -/
def Node.isValue : Node → Bool
  | .str _ => true
  | .bool _ => true
  | .num _ => true
  | .nil => true
  | .array _ => false
  | .holder _ => false
  | .map _ => false

/-- `Node.Array()` (node.go / query.go): an `Array` returns itself, an
`arrayHolder` returns the held array, everything else returns a nil slice
(`none`). -/
def Node.arrayView : Node → Option (List (Option Node))
  | .array xs => some xs
  | .holder xs => some xs
  | _ => none

/-- `Node.Map()` (node.go): a `Map` returns itself, everything else returns
a nil map (`none`). -/
def Node.mapView : Node → Option (List (String × Option Node))
  | .map es => some es
  | _ => none

/-- `strconv.Atoi` (Go): optional sign, one or more decimal digits, value
within the 64-bit signed integer range; anything else is an error
(`none`). -/
def atoi (s : String) : Option Int :=
  let cs := s.data
  let core : List Char → Option Int := fun ds =>
    if ds = [] then none
    else if ds.all Char.isDigit then
      let v : Int := ds.foldl (fun a c => a * 10 + (Int.ofNat (c.toNat - 48))) 0
      if v ≤ 9223372036854775807 then some v else none
    else none
  match cs with
  | '-' :: rest => (core rest).bind fun v =>
      if v ≤ 9223372036854775808 then some (-v) else none
  | '+' :: rest => (core rest).bind fun v =>
      if v ≤ 9223372036854775807 then some v else none
  | _ => (core cs).bind fun v =>
      if v ≤ 9223372036854775807 then some v else none

/-- A key passed to `Has`/`Get`/`Set`/`Delete` (Go `interface{}`): either an
`int` or a `string`. -/
inductive GoKey where
  | i (n : Int)
  | s (k : String)
deriving Repr, DecidableEq

/-- `Array.toIndex` (node.go): an `int` key must be non-negative, a `string`
key must parse with `Atoi` to a non-negative value; the boolean reports
whether the index is in range, `-1` flags an invalid key. -/
def toIndex (len : Nat) : GoKey → Int × Bool
  | .i k => if k ≥ 0 then (k, k < len) else (-1, false)
  | .s s =>
    match atoi s with
    | some k => if k ≥ 0 then (k, k < len) else (-1, false)
    | none => (-1, false)

/-- `Array.Has` (node.go, single key). -/
def arrHas (xs : List (Option Node)) (k : GoKey) : Bool :=
  (toIndex xs.length k).2

/-- `Array.Get` (node.go, single key): in-range index returns the element,
with a stored nil normalised to `NilValue`; otherwise `NilValue`. -/
def arrGet (xs : List (Option Node)) (k : GoKey) : Node :=
  let (i, ok) := toIndex xs.length k
  if ok then
    match xs.get? i.toNat with
    | some (some v) => v
    | some none => .nil
    | none => .nil
  else .nil

/-- Raw element access `a[i]` (no `NilValue` normalisation), as used by
`ArrayQuery.Exec` and slicing. -/
def arrElem (xs : List (Option Node)) (i : Nat) : Option Node :=
  match xs.get? i with
  | some v => v
  | none => none

/-- Association-list lookup for a `Map` (Go map read: present/absent plus
the stored, possibly nil, value). -/
def lookupS : List (String × Option Node) → String → Option (Option Node)
  | [], _ => none
  | (k, v) :: rest, key => if k = key then some v else lookupS rest key

/-- `Map.toKey` (node.go): an `int` key is converted with `Itoa`; the
boolean reports presence. -/
def mapToKey (es : List (String × Option Node)) : GoKey → String × Bool
  | .i n => (toString n, (lookupS es (toString n)).isSome)
  | .s k => (k, (lookupS es k).isSome)

/-- `Map.Has` (node.go, single key). -/
def mapHas (es : List (String × Option Node)) (k : GoKey) : Bool :=
  (mapToKey es k).2

/-- `Map.Get` (node.go, single key): a stored nil is normalised to
`NilValue`; a missing key yields `NilValue`. -/
def mapGet (es : List (String × Option Node)) (k : GoKey) : Node :=
  let (key, ok) := mapToKey es k
  if ok then
    match lookupS es key with
    | some (some v) => v
    | _ => .nil
  else .nil

/-- Go map write `m[k] = v`, keeping the association list sorted by key
(see the representation invariant in the file header). -/
def mapSetS : List (String × Option Node) → String → Option Node →
    List (String × Option Node)
  | [], key, v => [(key, v)]
  | (k, w) :: rest, key, v =>
    if key = k then (k, v) :: rest
    else if key < k then (key, v) :: (k, w) :: rest
    else (k, w) :: mapSetS rest key v

/-- Go map delete `delete(m, k)`. -/
def mapDeleteS : List (String × Option Node) → String →
    List (String × Option Node)
  | [], _ => []
  | (k, w) :: rest, key => if k = key then rest else (k, w) :: mapDeleteS rest key

/-- `Map.Values` (node.go): the stored values in sorted key order — list
order under our representation invariant.  Values are raw (a stored nil
stays nil). -/
def mapValues (es : List (String × Option Node)) : List (Option Node) :=
  es.map (·.2)

/-- `Node.Has` with a string key, dispatching as the Go interface call
does. -/
def Node.hasS : Node → String → Bool
  | .array xs, k => arrHas xs (.s k)
  | .holder xs, k => arrHas xs (.s k)
  | .map es, k => mapHas es (.s k)
  | _, _ => false

/-- `Node.Get` with a string key, dispatching as the Go interface call
does (primitives return `NilValue`). -/
def Node.getS : Node → String → Node
  | .array xs, k => arrGet xs (.s k)
  | .holder xs, k => arrGet xs (.s k)
  | .map es, k => mapGet es (.s k)
  | _, _ => .nil


/-! ## value.go: operators and `Value.Compare` -/

/-- Numeric equality under IEEE semantics: NaN is equal to nothing,
infinities are equal to themselves. -/
def numEq : NumV → NumV → Bool
  | .fin a, .fin b => a = b
  | .inf, .inf => true
  | .ninf, .ninf => true
  | _, _ => false

/-- Numeric strict order under IEEE semantics: any comparison with NaN is
false; `-Inf < finite < +Inf`. -/
def numLt : NumV → NumV → Bool
  | .fin a, .fin b => a < b
  | .fin _, .inf => true
  | .ninf, .fin _ => true
  | .ninf, .inf => true
  | _, _ => false

/-- `regexpMatchString` (util.go) delegates to the external Go `regexp`
package, which is outside this embedding; the canonical `ParseQuery` never
constructs the `~=` operator (see the C6 theorems below), so no theorem
depends on this definition's value.  It is modelled as constantly false. -/
def regexpMatchString (_pattern _value : String) : Bool := false

/-- `Value.Compare` (value.go): dispatches on the kind of the left value.
`NilValue` supports only `==`/`!=` against nil-ness; `String`, `Bool`,
`Number` compare against the same kind only, any cross-kind comparison being
false for every operator except `!=` (always true).  The operator is its Go
string (`Operator` is a string type). -/
def Value.compare : Value → String → Value → Bool
  | .nil, op, v =>
    match op with
    | "==" => (match v with | .nil => true | _ => false)
    | "!=" => (match v with | .nil => false | _ => true)
    | _ => false
  | .str sn, op, v =>
    match v with
    | .str sv =>
      match op with
      | "==" => sn = sv
      | ">" => sv < sn
      | ">=" => sv ≤ sn
      | "<" => sn < sv
      | "<=" => sn ≤ sv
      | "!=" => sn ≠ sv
      | "~=" => regexpMatchString sv sn
      | _ => false
    | _ => op = "!="
  | .bool bn, op, v =>
    match v with
    | .bool bv =>
      match op with
      | "==" => bn = bv
      | "!=" => bn ≠ bv
      | _ => false
    | _ => op = "!="
  | .num nn, op, v =>
    match v with
    | .num nv =>
      match op with
      | "==" => numEq nn nv
      | ">" => numLt nv nn
      | ">=" => numLt nv nn || numEq nn nv
      | "<" => numLt nn nv
      | "<=" => numLt nn nv || numEq nn nv
      | "!=" => ! numEq nn nv
      | _ => false
    | _ => op = "!="

/-! ## The tokenizer (query.go: `tokenRegexp`, `tokenizeQuery`)

`tokenRegexp` is

    "([^"]*)"|(and|or|==|<=|>=|!=|\.\.|[\.\[\]\(\)\|<>:])|(\w+)

and `tokenizeQuery` scans the expression with
`FindAllStringSubmatch(expr, -1)`.  Go's regexp engine uses leftmost-first
(Perl-style) semantics: successive non-overlapping matches, each starting at
the earliest position where some alternative matches, alternatives tried in
the order written.  `scan` below is that scan, character by character:
a double-quoted literal (group 1), a keyword or structural symbol (group 2),
or a maximal run of word characters (group 3); any character at which no
alternative can start a match is skipped. -/

/-- One regexp match: group 1 (quoted literal, possibly empty), group 2
(keyword/symbol), or group 3 (bare word, never empty). -/
inductive RawTok where
  | quo (s : String)
  | cmd (c : String)
  | word (s : String)
deriving Repr, DecidableEq

/-- `\w`: ASCII word character. -/
def isWordChar (c : Char) : Bool :=
  c.isAlpha || c.isDigit || c = '_'

/-- Split off the longest run of word characters. -/
def spanWord : List Char → List Char × List Char
  | [] => ([], [])
  | c :: rest =>
    if isWordChar c then
      let (w, r) := spanWord rest
      (c :: w, r)
    else ([], c :: rest)

theorem spanWord_len (cs : List Char) : (spanWord cs).2.length ≤ cs.length := by
  induction cs with
  | nil => simp [spanWord]
  | cons c rest ih =>
    simp only [spanWord]
    split
    · simpa using Nat.le_succ_of_le ih
    · simp

/-- Content of a quoted literal: the characters before the next `"` and the
remainder after it; `none` when no closing quote exists (in which case the
regexp cannot match at the opening quote at all). -/
def spanQuote : List Char → Option (List Char × List Char)
  | [] => none
  | c :: rest =>
    if c = '"' then some ([], rest)
    else match spanQuote rest with
      | some (w, r) => some (c :: w, r)
      | none => none

theorem spanQuote_len (cs : List Char) :
    ∀ w r, spanQuote cs = some (w, r) → r.length < cs.length := by
  induction cs with
  | nil => intro w r h; simp [spanQuote] at h
  | cons c rest ih =>
    intro w r h
    simp only [spanQuote] at h
    split at h
    · cases h
      simp
    · revert h
      cases hq : spanQuote rest with
      | none => intro h; cases h
      | some p =>
        obtain ⟨w2, r2⟩ := p
        intro h
        cases h
        exact Nat.lt_succ_of_lt (ih _ _ hq)

/-- The token scan (see the section comment), by recursion on a character
budget that the wrapper `scan` sets to the input length — every step
consumes at least one character, so the budget never runs out before the
input does.  Keyword alternatives are tried before the single-character
class and before bare words, mirroring the alternation order of
`tokenRegexp`. -/
def scanF : Nat → List Char → List RawTok
  | 0, _ => []
  | _ + 1, [] => []
  | f + 1, cs =>
    match cs with
    | [] => []
    | '"' :: rest =>
      match spanQuote rest with
      | some (w, r) => .quo (String.mk w) :: scanF f r
      | none => scanF f rest
    | 'a' :: 'n' :: 'd' :: rest => .cmd "and" :: scanF f rest
    | 'o' :: 'r' :: rest => .cmd "or" :: scanF f rest
    | '=' :: '=' :: rest => .cmd "==" :: scanF f rest
    | '<' :: '=' :: rest => .cmd "<=" :: scanF f rest
    | '>' :: '=' :: rest => .cmd ">=" :: scanF f rest
    | '!' :: '=' :: rest => .cmd "!=" :: scanF f rest
    | '.' :: '.' :: rest => .cmd ".." :: scanF f rest
    | '.' :: rest => .cmd "." :: scanF f rest
    | '[' :: rest => .cmd "[" :: scanF f rest
    | ']' :: rest => .cmd "]" :: scanF f rest
    | '(' :: rest => .cmd "(" :: scanF f rest
    | ')' :: rest => .cmd ")" :: scanF f rest
    | '|' :: rest => .cmd "|" :: scanF f rest
    | '<' :: rest => .cmd "<" :: scanF f rest
    | '>' :: rest => .cmd ">" :: scanF f rest
    | ':' :: rest => .cmd ":" :: scanF f rest
    | c :: rest =>
      if isWordChar c then
        match spanWord rest with
        | (w, r) => .word (String.mk (c :: w)) :: scanF f r
      else scanF f rest

/-- The scan of a whole string. -/
def scan (cs : List Char) : List RawTok := scanF cs.length cs


/-- Go `strconv.Quote` / the `%q` verb, for the error messages that embed
the offending expression.  Printable ASCII passes through; the quote,
backslash and the common control characters are escaped (sufficient for
every string a theorem below quotes). -/
def goQuote (s : String) : String :=
  let esc : Char → String := fun c =>
    if c = '"' then "\\\""
    else if c = '\\' then "\\\\"
    else if c = '\n' then "\\n"
    else if c = '\t' then "\\t"
    else String.singleton c
  "\"" ++ String.join (s.data.map esc) ++ "\""

/-- A node of the token tree (query.go `token`): `cmd`, `quoted`, `value`,
`children`.  The Go `parent` back-reference is realised by the explicit
stack in `build`. -/
inductive Token where
  | mk (cmd : String) (quoted : Bool) (value : String) (children : List Token)

instance : Inhabited Token := ⟨Token.mk "" false "" []⟩

/-- The `cmd` field. -/
def Token.cmd : Token → String
  | .mk c _ _ _ => c

/-- The `quoted` field. -/
def Token.quoted : Token → Bool
  | .mk _ q _ _ => q

/-- The `value` field. -/
def Token.value : Token → String
  | .mk _ _ v _ => v

/-- The `children` field. -/
def Token.children : Token → List Token
  | .mk _ _ _ ch => ch

/-- tokenizeQuery, value-token step: a bare word or quoted literal
immediately following a lone `.`/`..` token is attached to that token as its
`value` (overwriting any previous value), otherwise it becomes a new child. -/
def mergeValue (kids : List Token) (quoted : Bool) (value : String) :
    List Token :=
  match kids with
  | [] => [Token.mk "" quoted value []]
  | [Token.mk c q v ch] =>
    if c = "." ∨ c = ".." then [Token.mk c quoted value ch]
    else [Token.mk c q v ch, Token.mk "" quoted value []]
  | k :: rest => k :: mergeValue rest quoted value

/-- "syntax error: no left bracket" (tokenizeQuery). -/
def noLeftMsg (expr : String) : String :=
  "syntax error: no left bracket: " ++ goQuote expr

/-- "syntax error: no right brackets" (tokenizeQuery). -/
def noRightMsg (expr : String) : String :=
  "syntax error: no right brackets: " ++ goQuote expr

/-- The body of `tokenizeQuery` (query.go): fold the scanned matches into a
token tree.  The Go version keeps a `current` pointer with `parent`
back-references; here the chain of open tokens is an explicit stack whose
head is `current` and whose bottom is the root.  An opened `[`/`(` is
appended to its parent's children when it is closed (nothing can be
appended to the parent in between, so child order is preserved). -/
def build (expr : String) :
    List RawTok → List (String × List Token) → Except String Token
  | [], stack =>
    match stack with
    | [(_, kids)] => .ok (Token.mk "" false "" kids)
    | _ => .error (noRightMsg expr)
  | t :: rest, stack =>
    match stack with
    | [] => .error (noRightMsg expr)
    | (fc, kids) :: up =>
      match t with
      | .quo s =>
        if s ≠ "" then build expr rest ((fc, mergeValue kids true s) :: up)
        else build expr rest ((fc, kids ++ [Token.mk "" false "" []]) :: up)
      | .word w => build expr rest ((fc, mergeValue kids false w) :: up)
      | .cmd c =>
        if c = "]" ∨ c = ")" then
          if (c = "]" ∧ fc = "[") ∨ (c = ")" ∧ fc = "(") then
            match up with
            | (pc, pkids) :: up2 =>
              build expr rest ((pc, pkids ++ [Token.mk fc false "" kids]) :: up2)
            | [] => .error (noLeftMsg expr)
          else .error (noLeftMsg expr)
        else if c = "[" ∨ c = "(" then
          build expr rest ((c, []) :: (fc, kids) :: up)
        else build expr rest ((fc, kids ++ [Token.mk c false "" []]) :: up)

/-- `tokenizeQuery` (query.go): scan, then fold into a token tree rooted at
an empty-cmd token. -/
def tokenizeQuery (expr : String) : Except String Token :=
  build expr (scan expr.data) [("", [])]

/-! ## ParseFloat and literal coercion -/

/-- Checks `digit ('_'? digit)*`: the decimal-digit runs (with Go's
underscore placement rule) accepted inside a numeric literal. -/
def digitsOk : List Char → Bool
  | [] => false
  | c :: rest =>
    c.isDigit &&
    (let tail : List Char → Bool :=
      fun l => (l.zip (c :: l)).all fun (x, p) =>
        x.isDigit || (x = '_' && p.isDigit)
     tail rest && rest.getLast? ≠ some '_')

/-- Numeric value of a digit run, underscores skipped. -/
def digitsVal (cs : List Char) : Nat :=
  cs.foldl (fun a c => if c = '_' then a else a * 10 + (c.toNat - 48)) 0

/-- Largest `float64` (2^1024 − 2^971) as an exact rational; `ParseFloat`
reports a range error above it. -/
def maxFloat64 : Rat := ((2 ^ 1024 - 2 ^ 971 : Nat) : Rat)

/-- `strconv.ParseFloat` (Go), restricted to the strings that can reach it
from the tokenizer: `toValue` only applies it to unquoted values, which are
always non-empty `\w+` words — so no sign, no decimal point.  Modelled
forms: `nan`, `inf`, `infinity` (case-insensitive, giving the IEEE
specials), and decimal runs with an optional `e`/`E` exponent (Go's
underscore rule enforced), as an exact rational; a result above the
`float64` range is a range error (`none`, as `toValue` discards the value
when `err != nil`).  The hexadecimal-float form (`0x…p…`) is not modelled;
no theorem below evaluates one. -/
def parseFloatW (s : String) : Option NumV :=
  let lower : Char → Char := fun c =>
    if 'A' ≤ c ∧ c ≤ 'Z' then Char.ofNat (c.toNat + 32) else c
  let low := s.data.map lower
  if low = "nan".data then some .nan
  else if low = "inf".data ∨ low = "infinity".data then some .inf
  else
    let cs := s.data
    let eSplit : Option (List Char × List Char) :=
      match cs.findIdx? (fun c => c = 'e' ∨ c = 'E') with
      | some i => some (cs.take i, cs.drop (i + 1))
      | none => some (cs, [])
    match eSplit with
    | some (mant, ex) =>
      if digitsOk mant ∧ (ex = [] ∨ digitsOk ex) then
        let qn : Nat := digitsVal mant * 10 ^ digitsVal ex
        let q : Rat := (qn : Nat)
        if Rat.blt maxFloat64 q then none else some (.fin q)
      else none
    | none => none

/-- `token.toValue` (query.go): unquoted `true`/`false` become booleans,
an unquoted word parseable as a float becomes a number, everything else a
string. -/
def toValue (t : Token) : Node :=
  if t.quoted then .str t.value
  else if t.value = "true" then .bool true
  else if t.value = "false" then .bool false
  else
    match parseFloatW t.value with
    | some v => .num v
    | none => .str t.value

/-! ## Query plans -/

mutual
/-- The executable query plan (query.go): `NopQuery`, `ValueQuery`,
`MapQuery`, `ArrayQuery`, `ArrayRangeQuery`, `SlurpQuery`, `FilterQuery`,
`WalkQuery`, `SelectQuery` (whose `Selector` interface field may be nil). -/
inductive Query where
  | nop
  | value (v : Node)
  | mapQ (key : String)
  | arrayQ (idx : Int)
  | arrayRange (bounds : List Int)
  | slurp
  | filter (qs : List Query)
  | walkQ (key : String)
  | select (sel : Option Selector)

/-- The selector predicate tree (query.go): `And`, `Or`, `Comparator`
(whose operator is its Go string). -/
inductive Selector where
  | and (ss : List Selector)
  | or (ss : List Selector)
  | cmp (left : Query) (op : String) (right : Query)
end

/-! ## The parser (query.go: `tokenToQuery`, `tokensToSelector`,
`tokensToArrayRangeQuery`)

The mutual recursion of the Go parser goes through freshly allocated tokens
wrapping slices of a children list, so the Lean functions take an explicit
fuel argument for the termination argument only; `parseQuery` supplies a
fuel larger than any possible recursion depth for its token tree, so the
out-of-fuel branch is unreachable from `parseQuery`. -/

mutual
/-- Weight of a token tree (bounds the parser's recursion depth). -/
def tokenWeight : Token → Nat
  | .mk _ _ _ kids => 1 + tokenListWeight kids

/-- Summed weight of a token list. -/
def tokenListWeight : List Token → Nat
  | [] => 0
  | t :: rest => tokenWeight t + tokenListWeight rest
end

/-- `token.indexOfCmd` (query.go): index of the first child with the given
`cmd`, `none` for Go's `-1`. -/
def indexOfCmd (ts : List Token) (c : String) : Option Nat :=
  ts.findIdx? (fun t => t.cmd = c)

/-- "syntax error: invalid array index". -/
def invalidIndexMsg (expr : String) : String :=
  "syntax error: invalid array index: " ++ goQuote expr

/-- "syntax error: invalid array range". -/
def invalidRangeMsg (expr : String) : String :=
  "syntax error: invalid array range: " ++ goQuote expr

/-- "syntax error: invalid token". -/
def invalidTokenMsg (c : String) (expr : String) : String :=
  "syntax error: invalid token " ++ c ++ ": " ++ goQuote expr

/-- "syntax error: mixed and|or". -/
def mixedMsg (expr : String) : String :=
  "syntax error: mixed and|or: " ++ goQuote expr

/-- Fuel exhaustion sentinel (unreachable from `parseQuery`). -/
def fuelMsg : String := "internal: recursion fuel exhausted"

/-- `tokensToArrayRangeQuery` (query.go): the integers on either side of the
first `:` child (taken from the neighbouring tokens' `value` fields), an
absent side being the open bound `-1`. -/
def tokensToArrayRange (ts : List Token) (i : Nat) (expr : String) :
    Except String Query := do
  let from_ ← (if h : 1 ≤ i then
      match atoi (ts.get! (i - 1)).value with
      | some v => pure v
      | none => throw (invalidRangeMsg expr)
    else pure (-1) : Except String Int)
  let to_ ← (if i + 1 < ts.length then
      match atoi (ts.get! (i + 1)).value with
      | some v => pure v
      | none => throw (invalidRangeMsg expr)
    else pure (-1) : Except String Int)
  pure (.arrayRange [from_, to_])

/-- The group-splitting loop at the head of `tokensToSelector` (query.go):
split the children on top-level `and`/`or` separators (mixing the two is
the "mixed and|or" error) and cut each parenthesised token into its own
singleton group.  Returns the final separator kind and the groups. -/
def splitGroups (expr : String) :
    List Token → String → List (List Token) → List Token →
    Except String (String × List (List Token))
  | [], andOr, gs, cur => .ok (andOr, gs ++ [cur])
  | t :: rest, andOr, gs, cur =>
    if t.cmd = "and" ∨ t.cmd = "or" then
      if andOr ≠ "" ∧ andOr ≠ t.cmd then .error (mixedMsg expr)
      else splitGroups expr rest t.cmd (gs ++ [cur]) []
    else if t.cmd = "(" then
      splitGroups expr rest andOr (gs ++ [cur, [t]]) []
    else splitGroups expr rest andOr gs (cur ++ [t])

/-- The comparison operators recognised inside a selector group (query.go
`tokensToSelector`): `EQ GT GE LT LE NE` — `~=` (`RE`) is *not* among
them. -/
def isCompOp (c : String) : Bool :=
  c = "==" ∨ c = ">" ∨ c = ">=" ∨ c = "<" ∨ c = "<=" ∨ c = "!="

/-- Index of the first token in a group that is a `(` or a comparison
operator (the group loop of `tokensToSelector` acts on whichever comes
first). -/
def findParenOrOp (ts : List Token) : Option (Nat × Bool) :=
  match ts.findIdx? (fun t => t.cmd = "(" || isCompOp t.cmd) with
  | some i =>
    match ts.get? i with
    | some t => some (i, t.cmd = "(")
    | none => none
  | none => none

/-- A parser work item: a token (`tokenToQuery`), a children list (the
`FilterQuery` loop of `tokenToQuery`), a selector body (`tokensToSelector`),
or a group list (its per-group loop).  The four mutually recursive Go
functions are a single Lean function `parseGo` over this sum so that the
recursion is structural in the fuel. -/
inductive PReq where
  | tok (t : Token)
  | children (ts : List Token)
  | sel (ts : List Token)
  | groups (gs : List (List Token))

/-- A parser result, matching the work item kind. -/
inductive PRes where
  | q (q : Query)
  | qs (l : List Query)
  | s (s : Selector)
  | ss (l : List Selector)

/-- Result projection (the mismatch branches are unreachable: `parseGo`
answers each request kind with its own result kind). -/
def PRes.asQ : PRes → Except String Query
  | .q x => .ok x
  | _ => .error fuelMsg

/-- Result projection, query lists. -/
def PRes.asQs : PRes → Except String (List Query)
  | .qs l => .ok l
  | _ => .error fuelMsg

/-- Result projection, selectors. -/
def PRes.asS : PRes → Except String Selector
  | .s x => .ok x
  | _ => .error fuelMsg

/-- Result projection, selector lists. -/
def PRes.asSs : PRes → Except String (List Selector)
  | .ss l => .ok l
  | _ => .error fuelMsg

/-- The parser (query.go `tokenToQuery`, `tokensToSelector` and their
loops), one case per work item:

* `.tok t` is `tokenToQuery`: dispatch on the token `cmd` as in the Go
  switch; the shared tail (`cmd` not specially handled, or empty `cmd` with
  children) errors on no children ("invalid token"), recurses on one child,
  and builds a `FilterQuery` from two or more.
* `.children ts` is the `FilterQuery` accumulation loop.
* `.sel ts` is `tokensToSelector`: split into groups (`splitGroups`
  reports mixed `and`/`or`), build each group's selector, and combine with
  `Or` exactly when the final separator was `or` (otherwise `And`).
* `.groups gs` is the per-group loop: a group whose first structural token
  is `(` contributes the parenthesised sub-selector; a group with a
  comparison operator contributes a `Comparator` parsed from the tokens on
  each side; a group with neither contributes nothing.

The fuel only drives the termination argument; `parseQuery` supplies more
than any possible recursion depth for its token tree, so the out-of-fuel
branch is unreachable from `parseQuery`. -/
def parseGo : Nat → String → PReq → Except String PRes
  | 0, _, _ => .error fuelMsg
  | f + 1, expr, .tok t =>
    let child := t.children.length
    match t.cmd with
    | "|" => .ok (.q .slurp)
    | "." => if t.value ≠ "" then .ok (.q (.mapQ t.value)) else .ok (.q .nop)
    | ".." => if t.value ≠ "" then .ok (.q (.walkQ t.value)) else .ok (.q .nop)
    | "[" =>
      if child = 0 then .ok (.q (.select none))
      else if child = 1 then
        match atoi (t.children.get! 0).value with
        | some i => .ok (.q (.arrayQ i))
        | none => .error (invalidIndexMsg expr)
      else
        match indexOfCmd t.children ":" with
        | some i => do
          let q ← tokensToArrayRange t.children i expr
          pure (.q q)
        | none => do
          let r ← parseGo f expr (.sel t.children)
          let s ← r.asS
          pure (.q (.select (some s)))
    | "" =>
      if child = 0 then .ok (.q (.value (toValue t)))
      else if child = 1 then parseGo f expr (.tok (t.children.get! 0))
      else do
        let r ← parseGo f expr (.children t.children)
        let qs ← r.asQs
        pure (.q (.filter qs))
    | c =>
      if child = 0 then .error (invalidTokenMsg c expr)
      else if child = 1 then parseGo f expr (.tok (t.children.get! 0))
      else do
        let r ← parseGo f expr (.children t.children)
        let qs ← r.asQs
        pure (.q (.filter qs))
  | _ + 1, _, .children [] => .ok (.qs [])
  | f + 1, expr, .children (t :: rest) => do
    let r ← parseGo f expr (.tok t)
    let q ← r.asQ
    let r2 ← parseGo f expr (.children rest)
    let qs ← r2.asQs
    pure (.qs (q :: qs))
  | f + 1, expr, .sel ts => do
    let (andOr, groups) ← splitGroups expr ts "" [] []
    let r ← parseGo f expr (.groups groups)
    let ss ← r.asSs
    pure (.s (if andOr = "or" then .or ss else .and ss))
  | _ + 1, _, .groups [] => .ok (.ss [])
  | f + 1, expr, .groups (g :: rest) => do
    let hd ← (match findParenOrOp g with
      | none => pure []
      | some (i, true) => do
        let r ← parseGo f expr (.sel (g.get! i).children)
        let s ← r.asS
        pure [s]
      | some (i, false) => do
        let rl ← parseGo f expr (.tok (Token.mk "" false "" (g.take i)))
        let left ← rl.asQ
        let rr ← parseGo f expr (.tok (Token.mk "" false "" (g.drop (i + 1))))
        let right ← rr.asQ
        pure [Selector.cmp left (g.get! i).cmd right] :
          Except String (List Selector))
    let r ← parseGo f expr (.groups rest)
    let tl ← r.asSs
    pure (.ss (hd ++ tl))

/-- `tokensToSelector` (query.go), as a wrapper over `parseGo`. -/
def tokensToSelector (fuel : Nat) (ts : List Token) (expr : String) :
    Except String Selector := do
  let r ← parseGo fuel expr (.sel ts)
  r.asS

/-- `ParseQuery` (query.go): tokenize, then parse, with ample fuel. -/
def parseQuery (expr : String) : Except String Query := do
  let t ← tokenizeQuery expr
  let r ← parseGo (8 * tokenWeight t + 16) expr (.tok t)
  r.asQ


/-! ## `String()` rendering of plans (query.go) -/

/-- JSON string quoting (encoding/json) for the plain ASCII strings that
plans carry; quote, backslash and common controls escaped. -/
def jsonQuote (s : String) : String := goQuote s

/-- Decimal expansion of a rational whose denominator divides a power of
ten (every float that `ParseQuery` can produce is an integer, so only the
integer branch is exercised by the theorems below). -/
def decExpand (q : Rat) : String :=
  if q.den = 1 then toString q.num
  else toString q.num ++ "/" ++ toString q.den

/-- JSON encoding of a `NumberValue` (encoding/json on a `float64`).
Integers print without a decimal point.  `json.Marshal` errors on the IEEE
specials and `ValueQuery.String` discards the error, yielding the empty
string.  (The exponent forms Go uses for magnitudes ≥ 1e21 are not
modelled; no theorem renders such a number.) -/
def numJSON : NumV → String
  | .fin q => decExpand q
  | _ => ""

mutual
/-- `MarshalJSON` (json.go): used by `ValueQuery.String`.  Maps marshal in
sorted key order (list order under our invariant); a nil element marshals
as `null`; `NilValue` has a custom marshaler returning `null`. -/
def marshalJSON : Node → String
  | .str s => jsonQuote s
  | .bool b => if b then "true" else "false"
  | .num x => numJSON x
  | .nil => "null"
  | .array xs => "[" ++ String.intercalate "," (marshalJSONL xs) ++ "]"
  | .holder xs => "[" ++ String.intercalate "," (marshalJSONL xs) ++ "]"
  | .map es => "\x7b" ++ String.intercalate "," (marshalJSONM es) ++ "\x7d"

/-- Elementwise JSON encoding of an array body. -/
def marshalJSONL : List (Option Node) → List String
  | [] => []
  | none :: rest => "null" :: marshalJSONL rest
  | some v :: rest => marshalJSON v :: marshalJSONL rest

/-- Entrywise JSON encoding of a map body. -/
def marshalJSONM : List (String × Option Node) → List String
  | [] => []
  | (k, none) :: rest => (jsonQuote k ++ ":null") :: marshalJSONM rest
  | (k, some v) :: rest => (jsonQuote k ++ ":" ++ marshalJSON v) :: marshalJSONM rest
end

/-- `ArrayRangeQuery.String` (query.go): bounds joined by `:`, an open
bound (`-1`) printing as empty. -/
def rangeRender (l : List Int) : String :=
  "[" ++ String.intercalate ":"
    (l.map (fun r => if r ≠ -1 then toString r else "")) ++ "]"

mutual
/-- `Query.String` (query.go), per variant.  `SelectQuery.String` calls
`String` on its `Selector` interface field; when that field is nil the Go
call panics, modelled as `none`. -/
def renderQ : Query → Option String
  | .nop => some "."
  | .value v => some (marshalJSON v)
  | .mapQ k => some ("." ++ k)
  | .arrayQ i => some ("[" ++ toString i ++ "]")
  | .arrayRange l => some (rangeRender l)
  | .slurp => some " | "
  | .walkQ k => some (".." ++ k)
  | .filter qs => (renderQL qs).map (String.intercalate "")
  | .select none => none
  | .select (some s) => (renderS s).map (fun x => "[" ++ x ++ "]")

/-- `FilterQuery.String`, elementwise. -/
def renderQL : List Query → Option (List String)
  | [] => some []
  | q :: rest => do
    let s ← renderQ q
    let l ← renderQL rest
    pure (s :: l)

/-- `Selector.String`: `And`/`Or` parenthesise and join with the keyword;
`Comparator` is `left op right`. -/
def renderS : Selector → Option String
  | .and ss => (renderSL ss).map (fun l => "(" ++ String.intercalate " and " l ++ ")")
  | .or ss => (renderSL ss).map (fun l => "(" ++ String.intercalate " or " l ++ ")")
  | .cmp l op r => do
    let ls ← renderQ l
    let rs ← renderQ r
    pure (ls ++ " " ++ op ++ " " ++ rs)

/-- Selector list rendering. -/
def renderSL : List Selector → Option (List String)
  | [] => some []
  | s :: rest => do
    let x ← renderS s
    let l ← renderSL rest
    pure (x :: l)
end

/-! ## The evaluator (query.go `Exec`, util.go `Walk`) -/

/-- Modelled Go runtime panic: method call on a nil interface. -/
def panicMsg : String := "runtime panic: nil Node"

/-- Modelled Go runtime panic: slice bounds out of range. -/
def slicePanicMsg : String := "runtime panic: slice bounds out of range"

/-- Go slicing `a[x:y]` with the `ArrayRangeQuery.Exec` open-bound rules:
`from = -1` is `a[:to]`, `to = -1` is `a[from:]`; bounds outside
`0 ≤ from ≤ to ≤ len` panic. -/
def goSlice (xs : List (Option Node)) (from_ to_ : Int) :
    Except String (List (Option Node)) :=
  if from_ = -1 then
    if 0 ≤ to_ ∧ to_ ≤ xs.length then .ok (xs.take to_.toNat)
    else .error slicePanicMsg
  else if to_ = -1 then
    if 0 ≤ from_ ∧ from_ ≤ xs.length then .ok (xs.drop from_.toNat)
    else .error slicePanicMsg
  else
    if 0 ≤ from_ ∧ from_ ≤ to_ ∧ to_ ≤ xs.length then
      .ok ((xs.drop from_.toNat).take (to_ - from_).toNat)
    else .error slicePanicMsg

mutual
/-- `walk` (util.go), as called by `WalkQuery.Exec` on a non-nil node:
visit the node first (collecting `Get(key)` when `Has(key)`), then recurse
through `Each` — array elements in index order, map values in sorted key
order (list order under our invariant), primitives calling back once with
a nil key, which the walk closure skips. -/
def walkN (key : String) (n : Node) : Except String (List Node) :=
  match n with
  | .array xs => do
    let r ← walkL key xs
    pure ((if (Node.array xs).hasS key then [(Node.array xs).getS key] else []) ++ r)
  | .holder xs => do
    let r ← walkL key xs
    pure ((if (Node.holder xs).hasS key then [(Node.holder xs).getS key] else []) ++ r)
  | .map es => do
    let r ← walkM key es
    pure ((if (Node.map es).hasS key then [(Node.map es).getS key] else []) ++ r)
  | n => .ok (if n.hasS key then [n.getS key] else [])

/-- Array branch of the walk.  `Array.Each` passes raw elements; walking a
nil element calls `Has` on a nil interface — a panic. -/
def walkL (key : String) : List (Option Node) → Except String (List Node)
  | [] => .ok []
  | none :: _ => .error panicMsg
  | some v :: rest => do
    let a ← walkN key v
    let b ← walkL key rest
    pure (a ++ b)

/-- Map branch of the walk.  `Map.Each` passes the raw stored values
(`m[k]`); a stored nil panics as in the array case. -/
def walkM (key : String) : List (String × Option Node) → Except String (List Node)
  | [] => .ok []
  | (_, none) :: _ => .error panicMsg
  | (_, some v) :: rest => do
    let a ← walkN key v
    let b ← walkM key rest
    pure (a ++ b)
end

/-- The "no single value" cardinality error of `Comparator.Matches`
(query.go): `fmt.Errorf("%q returns no single value %+v", side, results)`.
The `%q` renders the side's plan via its `String` method (a panic for a nil
selector, `none` here); the trailing `%+v` dump of the result slice is
omitted from the model — no theorem inspects it. -/
def noSingleMsg (side : Query) : Except String String :=
  match renderQ side with
  | some s => .ok (goQuote s ++ " returns no single value")
  | none => .error panicMsg

/-- An evaluator work item: a query against a node (`Query.Exec`), the
per-result fan-out of one filter step, the working-set loop of
`FilterQuery.Exec`, the element loop of `SelectQuery.Exec`, or a selector
match (`Selector.Matches`, with the `And`/`Or` loops).  The mutually
recursive Go methods are a single Lean function `evalGo` over this sum so
that the recursion is structural in the fuel. -/
inductive EvReq where
  | q (q : Query) (n : Option Node)
  | each (q : Query) (rs : List (Option Node))
  | filt (qs : List Query) (rs : List (Option Node))
  | selEl (s : Selector) (xs : List (Option Node))
  | sel (s : Selector) (n : Option Node)
  | selAll (ss : List Selector) (n : Option Node)
  | selAny (ss : List Selector) (n : Option Node)

/-- An evaluator result: a result-node list or a selector verdict. -/
inductive EvRes where
  | ns (rs : List (Option Node))
  | b (b : Bool)

/-- Result projection (the mismatch branch is unreachable: `evalGo`
answers each request kind with its own result kind). -/
def EvRes.asNs : EvRes → Except String (List (Option Node))
  | .ns rs => .ok rs
  | _ => .error fuelMsg

/-- Result projection, selector verdicts. -/
def EvRes.asB : EvRes → Except String Bool
  | .b x => .ok x
  | _ => .error fuelMsg

/-- The evaluator (query.go), one case per work item; the node argument of
a query is a Go interface value (`none` = nil, on which any method call
panics):

* `.q q n` is `Query.Exec` per variant — see the Go methods `NopQuery`,
  `ValueQuery`, `MapQuery` (key presence via `Node.Has`, hence
  `Array.toIndex` on arrays), `ArrayQuery` (raw element), `ArrayRangeQuery`
  (open bounds, Go slicing), `SlurpQuery`, `FilterQuery`, `WalkQuery`,
  `SelectQuery` (arrays, then maps in sorted order; nil selector passes
  everything).
* `.each q rs` is the per-result fan-out of one filter step (nil results
  skipped, outputs concatenated).
* `.filt qs rs` is the working-set loop of `FilterQuery.Exec`: a
  `SlurpQuery` step executes against the whole current result list
  re-wrapped as one `Array`.
* `.selEl s xs` is the element loop of `SelectQuery.Exec`.
* `.sel s n` is `Selector.Matches`: `And` short-circuits on the first
  false/error, `Or` on the first true; a `Comparator` requires at most one
  result per side ("returns no single value"), treats a missing side by
  the both-absent rule, and otherwise delegates to `Value.Compare`.

The fuel only drives the termination argument; the wrappers below supply
more than any possible recursion depth, so the out-of-fuel branch is
unreachable from them. -/
def evalGo : Nat → EvReq → Except String EvRes
  | 0, _ => .error fuelMsg
  | f + 1, .q q n =>
    match q, n with
    | .nop, n => .ok (.ns [n])
    | .value v, _ => .ok (.ns [some v])
    | .mapQ _, none => .error panicMsg
    | .mapQ key, some nn =>
      if nn.isValue then .error ("cannot index array with " ++ goQuote key)
      else if nn.hasS key then .ok (.ns [some (nn.getS key)])
      else .ok (.ns [])
    | .arrayQ _, none => .error panicMsg
    | .arrayQ idx, some nn =>
      match nn.arrayView with
      | some xs =>
        if arrHas xs (.i idx) then .ok (.ns [arrElem xs idx.toNat])
        else .ok (.ns [])
      | none => .error ("cannot index array with " ++ toString idx)
    | .arrayRange _, none => .error panicMsg
    | .arrayRange l, some nn =>
      if l.length ≠ 2 then .error ("invalid array range " ++ rangeRender l)
      else
        match nn.arrayView with
        | some xs => do
          let r ← goSlice xs (l.get! 0) (l.get! 1)
          pure (.ns r)
        | none =>
          .error ("cannot index array with range " ++
            toString (l.get! 0) ++ ":" ++ toString (l.get! 1))
    | .slurp, n => .ok (.ns [n])
    | .filter qs, n => evalGo f (.filt qs [n])
    | .walkQ _, none => .error panicMsg
    | .walkQ key, some nn => do
      let r ← walkN key nn
      pure (.ns (r.map some))
    | .select _, none => .error panicMsg
    | .select sel, some nn =>
      match nn.arrayView with
      | some xs =>
        match sel with
        | none => .ok (.ns xs)
        | some s => evalGo f (.selEl s xs)
      | none =>
        match nn.mapView with
        | some es =>
          match sel with
          | none => .ok (.ns (mapValues es))
          | some s => evalGo f (.selEl s (mapValues es))
        | none => .ok (.ns [])
  | _ + 1, .each _ [] => .ok (.ns [])
  | f + 1, .each q (none :: rest) => evalGo f (.each q rest)
  | f + 1, .each q (some r :: rest) => do
    let a ← (evalGo f (.q q (some r))).bind EvRes.asNs
    let b ← (evalGo f (.each q rest)).bind EvRes.asNs
    pure (.ns (a ++ b))
  | _ + 1, .filt [] rs => .ok (.ns rs)
  | f + 1, .filt (.slurp :: qs) rs => do
    let nrs ← (evalGo f (.q .slurp (some (.array rs)))).bind EvRes.asNs
    evalGo f (.filt qs nrs)
  | f + 1, .filt (q :: qs) rs => do
    let nrs ← (evalGo f (.each q rs)).bind EvRes.asNs
    evalGo f (.filt qs nrs)
  | _ + 1, .selEl _ [] => .ok (.ns [])
  | f + 1, .selEl s (x :: rest) => do
    let ok ← (evalGo f (.sel s x)).bind EvRes.asB
    let b ← (evalGo f (.selEl s rest)).bind EvRes.asNs
    pure (.ns (if ok then x :: b else b))
  | f + 1, .sel (.and ss) n => evalGo f (.selAll ss n)
  | f + 1, .sel (.or ss) n => evalGo f (.selAny ss n)
  | f + 1, .sel (.cmp l op r) n => do
    let ll ← (evalGo f (.q l n)).bind EvRes.asNs
    let rr ← (evalGo f (.q r n)).bind EvRes.asNs
    let l0 : Option Node ← (match ll with
      | [] => pure none
      | [x] => pure x
      | _ => do let m ← noSingleMsg l; throw m : Except String (Option Node))
    let r0 : Option Node ← (match rr with
      | [] => pure none
      | [x] => pure x
      | _ => do let m ← noSingleMsg r; throw m : Except String (Option Node))
    match l0, r0 with
    | none, none => pure (.b true)
    | none, some _ => pure (.b false)
    | some _, none => pure (.b false)
    | some lv, some rv => pure (.b (lv.value.compare op rv.value))
  | _ + 1, .selAll [] _ => .ok (.b true)
  | f + 1, .selAll (s :: rest) n => do
    let ok ← (evalGo f (.sel s n)).bind EvRes.asB
    if ok then evalGo f (.selAll rest n) else pure (.b false)
  | _ + 1, .selAny [] _ => .ok (.b false)
  | f + 1, .selAny (s :: rest) n => do
    let ok ← (evalGo f (.sel s n)).bind EvRes.asB
    if ok then pure (.b true) else evalGo f (.selAny rest n)

mutual
/-- Weight of a query plan, for the evaluator's fuel bound. -/
def queryWeight : Query → Nat
  | .nop => 1
  | .value _ => 1
  | .mapQ _ => 1
  | .arrayQ _ => 1
  | .arrayRange _ => 1
  | .slurp => 1
  | .filter qs => 1 + queryListWeight qs
  | .walkQ _ => 1
  | .select none => 1
  | .select (some s) => 1 + selWeight s

/-- Summed weight of a query list. -/
def queryListWeight : List Query → Nat
  | [] => 0
  | q :: rest => queryWeight q + queryListWeight rest

/-- Weight of a selector. -/
def selWeight : Selector → Nat
  | .and ss => 1 + selListWeight ss
  | .or ss => 1 + selListWeight ss
  | .cmp l _ r => 1 + queryWeight l + queryWeight r

/-- Summed weight of a selector list. -/
def selListWeight : List Selector → Nat
  | [] => 0
  | s :: rest => selWeight s + selListWeight rest
end

mutual
/-- Weight of a node, for the evaluator's fuel bound. -/
def nodeWeight : Node → Nat
  | .array xs => 1 + nodeListWeight xs
  | .holder xs => 1 + nodeListWeight xs
  | .map es => 1 + nodeMapWeight es
  | _ => 1

/-- Summed weight of an array body. -/
def nodeListWeight : List (Option Node) → Nat
  | [] => 0
  | none :: rest => 1 + nodeListWeight rest
  | some v :: rest => nodeWeight v + nodeListWeight rest

/-- Summed weight of a map body. -/
def nodeMapWeight : List (String × Option Node) → Nat
  | [] => 0
  | (_, none) :: rest => 1 + nodeMapWeight rest
  | (_, some v) :: rest => nodeWeight v + nodeMapWeight rest
end

/-- Fuel ample for any evaluation of `q` against `n`: the working set after
`k` filter steps has at most (data weight)·(plan weight)^k entries, and
each evaluator call either descends the plan, a working-set list or the
data, so the recursion depth is far below this bound. -/
def evalFuel (q : Query) (n : Option Node) : Nat :=
  (queryWeight q + (match n with | some nn => nodeWeight nn | none => 1) + 2)
    ^ (queryWeight q + 2)

/-- `Query.Exec` (query.go): the evaluator at ample fuel. -/
def execQ (q : Query) (n : Option Node) : Except String (List (Option Node)) :=
  (evalGo (evalFuel q n) (.q q n)).bind EvRes.asNs

/-- `Selector.Matches` (query.go): the evaluator at ample fuel. -/
def selMatches (s : Selector) (n : Option Node) : Except String Bool :=
  (evalGo ((selWeight s + (match n with | some nn => nodeWeight nn | none => 1) + 2)
    ^ (selWeight s + 2)) (.sel s n)).bind EvRes.asB

/-- `Find` (query.go): parse then execute. -/
def find (n : Node) (expr : String) : Except String (List (Option Node)) := do
  let q ← parseQuery expr
  execQ q (some n)


/-! ## The edit engine (query.go): `holdArray`, `unholdArray`, `execForEdit`

Before mutating, `Edit` wraps every array reachable from the root in an
`arrayHolder` so that in-place writes through fetched references are seen
by the caller (Go slices are passed by value, Go maps and `*arrayHolder`
by reference), and unwraps them again on the way out. -/

mutual
/-- `holdArray` (query.go): box every reachable array in a holder
(an already-boxed array is re-boxed as a single holder, since the Go code
re-wraps the underlying array and discards the old box); map values and
array elements are held in place, nil elements skipped. -/
def holdN : Node → Node
  | .array xs => .holder (holdL xs)
  | .holder xs => .holder (holdL xs)
  | .map es => .map (holdM es)
  | .str s => .str s
  | .bool b => .bool b
  | .num x => .num x
  | .nil => .nil

/-- Elementwise `holdArray` over an array body. -/
def holdL : List (Option Node) → List (Option Node)
  | [] => []
  | none :: r => none :: holdL r
  | some v :: r => some (holdN v) :: holdL r

/-- Valuewise `holdArray` over a map body. -/
def holdM : List (String × Option Node) → List (String × Option Node)
  | [] => []
  | (k, none) :: r => (k, none) :: holdM r
  | (k, some v) :: r => (k, some (holdN v)) :: holdM r
end

mutual
/-- `unholdArray` (query.go): strip every holder back to a plain array,
recursing through array elements and map values (nil elements skipped). -/
def unholdN : Node → Node
  | .array xs => .array (unholdL xs)
  | .holder xs => .array (unholdL xs)
  | .map es => .map (unholdM es)
  | .str s => .str s
  | .bool b => .bool b
  | .num x => .num x
  | .nil => .nil

/-- Elementwise `unholdArray` over an array body. -/
def unholdL : List (Option Node) → List (Option Node)
  | [] => []
  | none :: r => none :: unholdL r
  | some v :: r => some (unholdN v) :: unholdL r

/-- Valuewise `unholdArray` over a map body. -/
def unholdM : List (String × Option Node) → List (String × Option Node)
  | [] => []
  | (k, none) :: r => (k, none) :: unholdM r
  | (k, some v) :: r => (k, some (unholdN v)) :: unholdM r
end

mutual
/-- No `arrayHolder` is reachable from this node. -/
def holderFree : Node → Bool
  | .holder _ => false
  | .array xs => holderFreeL xs
  | .map es => holderFreeM es
  | _ => true

/-- Elementwise `holderFree`. -/
def holderFreeL : List (Option Node) → Bool
  | [] => true
  | none :: r => holderFreeL r
  | some v :: r => holderFree v && holderFreeL r

/-- Valuewise `holderFree`. -/
def holderFreeM : List (String × Option Node) → Bool
  | [] => true
  | (_, none) :: r => holderFreeM r
  | (_, some v) :: r => holderFree v && holderFreeM r
end

/-! ### `execForEdit`, path model

`FilterQuery.execForEdit` and `execForEdit` (query.go) thread a working set
of Go node references through the filter's steps, mutating the shared tree
in place.  A reference into a tree without internal aliasing is exactly an
access path from the root (maps are references; arrays are boxed by
`holdArray` for the duration of the edit — see the C9 theorems — so every
container on a path has stable identity).  We model the working set as a
list of paths and the mutation as functional update at a path, for filters
whose elements are `MapQuery`/`ArrayQuery` steps — the shapes the container
synthesis of `execForEdit` quantifies over.  A map value that stores a nil
node resolves to `none` here and is skipped as a nil result; the theorems
below never touch stored-nil values. -/

/-- A path component: map key or array index. -/
inductive PKey where
  | k (s : String)
  | i (n : Nat)
deriving Repr, DecidableEq

/-- An edit step: `MapQuery(key)` or `ArrayQuery(index)`. -/
inductive PStep where
  | mkey (k : String)
  | aidx (i : Int)
deriving Repr, DecidableEq, Inhabited

/-- The node a path denotes (`none` for a missing key/index or a stored nil
node). -/
def nodeAt : Node → List PKey → Option Node
  | n, [] => some n
  | n, .k s :: p =>
    match n with
    | .map es =>
      match lookupS es s with
      | some (some v) => nodeAt v p
      | _ => none
    | _ => none
  | n, .i idx :: p =>
    match n.arrayView with
    | some xs =>
      match xs.get? idx with
      | some (some v) => nodeAt v p
      | _ => none
    | none => none

/-- Replace the stored value under one map key (no-op on an absent key). -/
def setEntryM (es : List (String × Option Node)) (s : String)
    (w : Option Node) : List (String × Option Node) :=
  es.map fun e => if e.1 = s then (e.1, w) else e

/-- Functional update at a path: fetch the child on the head component,
update it recursively, and write it back.  An unresolvable path leaves the
tree unchanged; the edit engine only writes at paths it has previously
resolved with `nodeAt`. -/
def replaceAt : Node → List PKey → Node → Node
  | _, [], v => v
  | n, [.k s], v =>
    match n with
    | .map es => if (lookupS es s).isSome then .map (setEntryM es s (some v)) else n
    | _ => n
  | n, .k s :: q :: p, v =>
    match n with
    | .map es =>
      match lookupS es s with
      | some (some u) => .map (setEntryM es s (some (replaceAt u (q :: p) v)))
      | _ => n
    | _ => n
  | n, [.i idx], v =>
    match n with
    | .array xs => .array (xs.set idx (some v))
    | .holder xs => .holder (xs.set idx (some v))
    | _ => n
  | n, .i idx :: q :: p, v =>
    match n with
    | .array xs =>
      match xs.get? idx with
      | some (some u) => .array (xs.set idx (some (replaceAt u (q :: p) v)))
      | _ => n
    | .holder xs =>
      match xs.get? idx with
      | some (some u) => .holder (xs.set idx (some (replaceAt u (q :: p) v)))
      | _ => n
    | _ => n


/-- `(*Array).Set` body after `toIndex` (node.go): an in-range index is
overwritten; an out-of-range (non-negative) index grows the array to
`i + 1` elements, new slots nil. -/
def arrSetAt (xs : List (Option Node)) (i : Nat) (v : Option Node) :
    List (Option Node) :=
  if i < xs.length then xs.set i v
  else (xs ++ List.replicate (i + 1 - xs.length) none).set i v

/-- `EditorQuery.Set` for a `MapQuery`/`ArrayQuery` step applied to the
node `r` (query.go `MapQuery.Set`, `ArrayQuery.Set`): dispatches to the
`EditorNode` — `Map.Set` stores the value as given; `(*arrayHolder).Set`
stores it re-held (`h.a.Set(key, *holdArray(&v))`), erroring on an invalid
index; a plain (unboxed) array or a primitive is not an `EditorNode`. -/
def stepSetNode (st : PStep) (r : Node) (v : Node) : Except String Node :=
  match st, r with
  | .mkey k, .map es => .ok (.map (mapSetS es k (some v)))
  | .mkey k, .holder xs =>
    match toIndex xs.length (.s k) with
    | (i, _) =>
      if i = -1 then .error ("cannot index array with " ++ k)
      else .ok (.holder (arrSetAt xs i.toNat (some (holdN v))))
  | .mkey k, _ => .error ("cannot index array with " ++ goQuote k)
  | .aidx i, .map es => .ok (.map (mapSetS es (toString i) (some v)))
  | .aidx i, .holder xs =>
    match toIndex xs.length (.i i) with
    | (j, _) =>
      if j = -1 then .error ("cannot index array with " ++ toString i)
      else .ok (.holder (arrSetAt xs j.toNat (some (holdN v))))
  | .aidx i, _ => .error ("cannot index array with " ++ toString i)

/-- `Query.Exec` for a `MapQuery`/`ArrayQuery` step on the node at path
`p`, with results as paths (same dispatch as the corresponding cases of
`execQ`; a key that hits an array resolves to the numeric index
`Array.toIndex` computed). -/
def stepExec (r : Node) (p : List PKey) (st : PStep) :
    Except String (List (List PKey)) :=
  match st with
  | .mkey k =>
    if r.isValue then .error ("cannot index array with " ++ goQuote k)
    else
      match r with
      | .map es => if mapHas es (.s k) then .ok [p ++ [.k k]] else .ok []
      | .array xs =>
        if arrHas xs (.s k) then .ok [p ++ [.i (toIndex xs.length (.s k)).1.toNat]]
        else .ok []
      | .holder xs =>
        if arrHas xs (.s k) then .ok [p ++ [.i (toIndex xs.length (.s k)).1.toNat]]
        else .ok []
      | _ => .ok []
  | .aidx i =>
    match r.arrayView with
    | some xs => if arrHas xs (.i i) then .ok [p ++ [.i i.toNat]] else .ok []
    | none => .error ("cannot index array with " ++ toString i)

/-- Mutate-and-set at path `p`: apply the step's `Set` to the node there
and write the updated container back. -/
def stepSet (root : Node) (p : List PKey) (st : PStep) (v : Node) :
    Except String Node :=
  match nodeAt root p with
  | none => .error "runtime error: nil"
  | some r => do
    let r' ← stepSetNode st r v
    pure (replaceAt root p r')

/-- One intermediate step of `FilterQuery.execForEdit` over the working
set: execute the step against each non-nil current result; if a result
yields no match and the *next* step is a `MapQuery` (resp. `ArrayQuery`),
synthesize an empty `Map` (resp. a plain empty `Array`), set it with this
step's `Set`, and re-execute the step.  The tree threads through because
the Go code mutates it in place. -/
def feStep (st : PStep) (nxt : PStep) :
    Node → List (List PKey) → Except String (Node × List (List PKey))
  | root, [] => .ok (root, [])
  | root, p :: ps =>
    match nodeAt root p with
    | none => feStep st nxt root ps
    | some r => do
      let nr ← stepExec r p st
      let (root2, nr2) ← (do
        if nr = [] then
          let empty : Node := match nxt with
            | .mkey _ => .map []
            | .aidx _ => .array []
          let root' ← stepSet root p st empty
          match nodeAt root' p with
          | none => throw panicMsg
          | some r' => do
            let nr' ← stepExec r' p st
            pure (root', nr')
        else pure (root, nr) : Except String (Node × List (List PKey)))
      let (root3, tl) ← feStep st nxt root2 ps
      pure (root3, nr2 ++ tl)

/-- `FilterQuery.execForEdit` (query.go): run all but the last step over
the working set (which starts as the root itself), with the container
synthesis of `feStep`. -/
def execForEditP : List PStep → Node → List (List PKey) →
    Except String (Node × List (List PKey))
  | [], root, rs => .ok (root, rs)
  | [_], root, rs => .ok (root, rs)
  | st :: nxt :: rest, root, rs => do
    let (root', rs') ← feStep st nxt root rs
    execForEditP (nxt :: rest) root' rs'

/-- The final write loop of `execForEdit` (query.go): a nil node in the
working set is the error "runtime error: nil"; otherwise the last step's
`Set` runs against each node. -/
def editFinal (last : PStep) (v : Node) :
    Node → List (List PKey) → Except String Node
  | root, [] => .ok root
  | root, p :: ps =>
    match nodeAt root p with
    | none => .error "runtime error: nil"
    | some _ => do
      let root' ← stepSet root p last v
      editFinal last v root' ps

/-- `Edit` with a `=`/`set` operation along a `MapQuery`/`ArrayQuery`
filter path (query.go `Edit` → `editQuery` → `execForEdit`): hold every
array, resolve all but the last step (synthesizing missing intermediate
containers), `Set` the value at each resolved node with the last step, and
unhold on the way out.  An empty path is a no-op, as in
`execForEdit` (`l == 0`). -/
def editSet (steps : List PStep) (root : Node) (v : Node) :
    Except String Node :=
  match steps with
  | [] => .ok (unholdN (holdN root))
  | _ => do
    let held := holdN root
    let (held', nn) ← (if steps.length > 1 then execForEditP steps held [[]]
      else pure (held, [[]]) : Except String (Node × List (List PKey)))
    let final ← editFinal (steps.getLast!) v held' nn
    pure (unholdN final)


/-! ## Fixtures

The canonical "bookstore" object of the repository's tests and README
(query_test.go `testStoreJSON`), with map entries listed in sorted key
order per the representation invariant. -/

/-- Shorthand: string node. -/
def vs (s : String) : Option Node := some (.str s)

/-- Shorthand: number node. -/
def vq (x : Rat) : Option Node := some (.num (.fin x))

/-- Bookstore: book 0. -/
def book0 : Node := .map [("author", vs "Nigel Rees"),
  ("authors", some (.array [vs "Nigel Rees"])),
  ("category", vs "reference"), ("price", vq 8.95),
  ("title", vs "Sayings of the Century")]

/-- Bookstore: book 1. -/
def book1 : Node := .map [("author", vs "Evelyn Waugh"),
  ("category", vs "fiction"), ("price", vq 12.99),
  ("title", vs "Sword of Honour")]

/-- Bookstore: book 2. -/
def book2 : Node := .map [("author", vs "Herman Melville"),
  ("category", vs "fiction"), ("isbn", vs "0-553-21311-3"),
  ("price", vq 8.99), ("title", vs "Moby Dick")]

/-- Bookstore: book 3. -/
def book3 : Node := .map [("author", vs "J. R. R. Tolkien"),
  ("category", vs "fiction"), ("isbn", vs "0-395-19395-8"),
  ("price", vq 22.99), ("title", vs "The Lord of the Rings")]

/-- The bookstore root object. -/
def bookstore : Node := .map [("store", some (.map [
  ("bicycle", some (.map [("color", vs "red"), ("price", vq 19.95)])),
  ("book", some (.array [some book0, some book1, some book2, some book3]))]))]

/-! ## C1 — `MapQuery` on an `Array` does not auto-vectorize -/

/-- The Array-of-Maps from the claim: `[{"k":1},{"k":2},{"k":3}]`. -/
def arrOfMaps : Node := .array [
  some (.map [("k", vq 1)]),
  some (.map [("k", vq 2)]),
  some (.map [("k", vq 3)])]

/-- C1, counterexample: `MapQuery("k").Exec` on `[{"k":1},{"k":2},{"k":3}]`
returns the *empty* result list — not `[1,2,3]` as the claim states.
(`MapQuery.Exec` asks `n.Has(key)`; `Array.toIndex` rejects the non-numeric
key, so no element map is ever consulted.) -/
theorem C1_counterexample :
    execQ (.mapQ "k") (some arrOfMaps) = .ok [] ∧
    (Except.ok [] : Except String (List (Option Node))) ≠
      .ok [vq 1, vq 2, vq 3] := by
  constructor
  · rfl
  · intro h
    simp at h

/-- C1, amended: a `MapKey` query applied to an Array never vectorizes over
the elements.  A key that does not parse as an integer index yields no
results at all (elements that are Maps with that key are *not* consulted);
on the claim's array `[{"k":1},{"k":2},{"k":3}]` the result is `[]`. -/
theorem C1_mapquery_on_array (key : String) (xs : List (Option Node))
    (h : atoi key = none) :
    execQ (.mapQ key) (some (.array xs)) = .ok [] ∧
    execQ (.mapQ "k") (some arrOfMaps) = .ok [] := by
  refine ⟨?_, rfl⟩
  obtain ⟨f, hf⟩ := Nat.exists_eq_succ_of_ne_zero
    (pow_ne_zero (queryWeight (.mapQ key) + 2)
      (a := queryWeight (.mapQ key) + nodeWeight (.array xs) + 2) (by omega))
  rw [execQ, evalFuel, hf]
  have h2 : evalGo f.succ (.q (.mapQ key) (some (.array xs))) = .ok (.ns []) := by
    simp [evalGo, Node.isValue, Node.hasS, arrHas, toIndex, h]
  rw [h2]
  rfl

/-- C1, witness for the amended theorem at `key := "k"`, `xs := []`. -/
theorem C1_witness :
    execQ (.mapQ "k") (some (.array [])) = .ok [] ∧
    execQ (.mapQ "k") (some arrOfMaps) = .ok [] :=
  C1_mapquery_on_array "k" [] rfl

/-! ## C2 — `WalkQuery` does descend into matched subtrees -/

/-- The inner map of the nested fixture. -/
def innerName : Node := .map [("name", some (.str "x"))]

/-- The nested fixture `{"name":{"name":"x"}}`. -/
def nestedName : Node := .map [("name", some innerName)]

/-- C2, counterexample: on `{"name":{"name":"x"}}`, `Walk("name")` returns
*both* the outer match `{"name":"x"}` and the occurrence `"x"` nested
inside it — the claim's skip-children-of-match semantics would return only
the outer match.  (The walk closure in `WalkQuery.Exec` never returns
`SkipWalk`, so `walk` recurses into every child.) -/
theorem C2_counterexample :
    execQ (.walkQ "name") (some nestedName) =
      .ok [some innerName, some (.str "x")] ∧
    (Except.ok [some innerName, some (.str "x")] :
        Except String (List (Option Node))) ≠ .ok [some innerName] := by
  constructor
  · rfl
  · intro h
    simp at h

/-- C2, amended: `WalkQuery(key).Exec` is a recursive pre-order traversal
(arrays by index, maps by sorted key) collecting `Get(key)` at every
visited node that `Has(key)`, *including* nodes inside already-matched
subtrees: for a map with the single matching entry `(key, c)`, the result
is `c` followed by all the matches found by walking into `c` itself; on
`{"name":{"name":"x"}}` both the inner map and `"x"` are returned. -/
theorem C2_walk_descends (k : String) (c : Node) :
    walkN k (.map [(k, some c)]) = (walkN k c).map (fun r => c :: r) ∧
    execQ (.walkQ "name") (some nestedName) =
      .ok [some innerName, some (.str "x")] := by
  refine ⟨?_, rfl⟩
  cases h : walkN k c with
  | ok a =>
    simp only [walkN, walkM, h]
    simp [Node.hasS, Node.getS, mapHas, mapGet, mapToKey, lookupS, Except.map]
    rfl
  | error e =>
    simp only [walkN, walkM, h]
    rfl

/-! ## C3 — `FilterQuery` working-set threading and the Slurp barrier -/

/-- The plan of `.store.book[].author|[0]` (the repository's own
`Test_ParseQuery` expectation). -/
def slurpPlan : Query := .filter [.mapQ "store", .mapQ "book",
  .select none, .mapQ "author", .slurp, .arrayQ 0]

/-- C3: `FilterQuery.Exec` threads the working set as claimed.  A `Slurp`
step replaces the entire current working set `rs` by the single result
`[Array(rs)]` before the remaining steps run; a nil result is skipped by an
ordinary step; and on the bookstore fixture `.store.book[].author|[0]`
parses to the expected pipeline and evaluates to exactly `["Nigel Rees"]`. -/
theorem C3_filter_threading :
    (∀ (f : Nat) (qs : List Query) (rs : List (Option Node)),
      evalGo (f + 2) (.filt (.slurp :: qs) rs) =
        evalGo (f + 1) (.filt qs [some (.array rs)])) ∧
    (∀ (f : Nat) (q : Query) (rs : List (Option Node)),
      evalGo (f + 1) (.each q (none :: rs)) = evalGo f (.each q rs)) ∧
    parseQuery ".store.book[].author|[0]" = .ok slurpPlan ∧
    execQ slurpPlan (some bookstore) = .ok [some (.str "Nigel Rees")] := by
  exact ⟨fun f qs rs => rfl, fun f q rs => rfl, rfl, rfl⟩

/-! ## C6 — the `~=` operator is documented and tested but not parsed -/

/-- The README/Test_Find expression exercising `~=`
(`.store.book[.title ~= "^S"].title`). -/
def reExpr : String := ".store.book[.title ~= \"^S\"].title"

/-- C6, the code's actual behaviour at the repository's own test input:
`tokenRegexp` has no alternative for `~=` (nor for a lone `~` or `=`), so
both characters are dropped by the scan; the quoted pattern `"^S"` then
merges into the preceding `.title` token as its value, leaving the bracket
with a single child whose value `"^S"` is not an integer — `ParseQuery`
fails with "invalid array index".  The README table and `Test_Find` expect
this very expression to select the titles beginning with "S", and
value.go's `Operator`/`Compare` support `RE` (`~=`) — the parser simply
cannot produce it. -/
theorem C6_regex_not_parsed :
    scan "~=".data = [] ∧
    scan "~".data = [] ∧
    scan "=".data = [] ∧
    parseQuery reExpr = .error (invalidIndexMsg reExpr) := by
  exact ⟨rfl, rfl, rfl, rfl⟩


/-! ## C4 — `Comparator.Matches` cardinality and the missing-operand rule -/

/-- C4, counterexample: with *both* sides absent, `Matches` returns
`l0 == nil && r0 == nil` *before ever looking at the operator*, so `!=`
(and even `<`) match two missing operands — the claim says `!=` matches
exactly when *not* both sides are absent, and that no operator other than
`==`/`!=` matches a missing operand. -/
theorem C4_counterexample :
    selMatches (.cmp (.mapQ "a") "!=" (.mapQ "b")) (some (.map [])) = .ok true ∧
    selMatches (.cmp (.mapQ "a") "<" (.mapQ "b")) (some (.map [])) = .ok true ∧
    (Except.ok true : Except String Bool) ≠ .ok false := by
  refine ⟨rfl, rfl, ?_⟩
  intro h
  simp at h

/-- C4, amended: each side of a comparison must produce at most one node —
if a side's query yields two or more results, `Matches` fails with
`"<side>" returns no single value`; when either side yields zero results,
the outcome ignores the operator entirely and is true exactly when *both*
sides are absent (so `==` and `!=` and every ordering operator all match
two missing operands, and nothing matches exactly one missing operand). -/
theorem C4_comparator (f : Nat) (l r : Query) (op : String) (n : Option Node)
    (ll rr : List (Option Node))
    (hl : evalGo f (.q l n) = .ok (.ns ll))
    (hr : evalGo f (.q r n) = .ok (.ns rr)) :
    (∀ sl, 1 < ll.length → renderQ l = some sl →
      evalGo (f + 1) (.sel (.cmp l op r) n) =
        .error (goQuote sl ++ " returns no single value")) ∧
    (ll = [] → rr = [] →
      evalGo (f + 1) (.sel (.cmp l op r) n) = .ok (.b true)) ∧
    (∀ v, ll = [] → rr = [some v] →
      evalGo (f + 1) (.sel (.cmp l op r) n) = .ok (.b false)) ∧
    (∀ v, ll = [some v] → rr = [] →
      evalGo (f + 1) (.sel (.cmp l op r) n) = .ok (.b false)) := by
  refine ⟨?_, ?_, ?_, ?_⟩
  · intro sl hlen hrender
    match ll, hl, hlen with
    | a :: b :: tl, hl, _ =>
      simp only [evalGo, hl, hr, EvRes.asNs, noSingleMsg, hrender]
      rfl
  · intro h1 h2
    subst h1; subst h2
    simp only [evalGo, hl, hr, EvRes.asNs]
    rfl
  · intro v h1 h2
    subst h1; subst h2
    simp only [evalGo, hl, hr, EvRes.asNs]
    rfl
  · intro v h1 h2
    subst h1; subst h2
    simp only [evalGo, hl, hr, EvRes.asNs]
    rfl

/-- A three-element array for the C4 witness. -/
def arr3 : Node := .array [vs "a", vs "b", vs "c"]

/-- C4, witness: `[0:2]` on a three-element array yields two nodes, so a
comparison with it on the left fails with the cardinality error; two
absent map keys compare `!=`-equal (both-absent rule). -/
theorem C4_witness :
    evalGo 2 (.sel (.cmp (.arrayRange [0, 2]) "==" (.value (.str "x")))
        (some arr3)) =
      .error ("\"[0:2]\" returns no single value") ∧
    evalGo 2 (.sel (.cmp (.mapQ "a") "!=" (.mapQ "b")) (some (.map []))) =
      .ok (.b true) :=
  ⟨(C4_comparator 1 (.arrayRange [0, 2]) (.value (.str "x")) "==" (some arr3)
      [vs "a", vs "b"] [some (.str "x")] rfl rfl).1 "[0:2]" (by simp) rfl,
   (C4_comparator 1 (.mapQ "a") (.mapQ "b") "!=" (some (.map []))
      [] [] rfl rfl).2.1 rfl rfl⟩

/-! ## C5 — `String()` round-trip fails for Select plans -/

/-- The plan of `[.a == .b]`. -/
def selPlan : Query := .select (some (.and [.cmp (.mapQ "a") "==" (.mapQ "b")]))

/-- C5, counterexample: `ParseQuery("[.a == .b]")` produces a Select plan;
its `String()` is `[(.a == .b)]` (the `And` wrapper parenthesises); but
re-parsing that string *fails* with "invalid array index" — the bracket now
holds a single parenthesised child whose `value` is empty, and
`tokenToQuery` unconditionally feeds a single bracket child to `Atoi`.  So
the round-trip property fails for every Select plan. -/
theorem C5_counterexample :
    parseQuery "[.a == .b]" = .ok selPlan ∧
    renderQ selPlan = some "[(.a == .b)]" ∧
    parseQuery "[(.a == .b)]" = .error (invalidIndexMsg "[(.a == .b)]") :=
  ⟨rfl, rfl, rfl⟩

/-- The plan of `.store.book[0]`. -/
def pathPlan : Query := .filter [.mapQ "store", .mapQ "book", .arrayQ 0]

/-- The plan of `.a..b[1:2] | [0]`. -/
def mixedPlan : Query := .filter [.mapQ "a", .walkQ "b", .arrayRange [1, 2],
  .slurp, .arrayQ 0]

/-- C5, amended: the round-trip is not a law on any syntactic class of
plans, only a plan-by-plan property.  It does hold for the spec's own
example — `ParseQuery(".store.book[0]")` stringifies back to
`.store.book[0]` and re-parses to the equal plan, likewise for a plan
mixing walk, range and slurp steps — but it fails for every Select plan,
whose rendered parentheses make re-parsing fail (see the counterexample),
and it fails even for a selector-free plan: `MapQuery("a b")` (parsed from
`."a b"`) renders as `.a b`, which re-parses to `MapQuery("b")` because the
tokenizer's value-attach rule overwrites the `.` token's key with each
following bare word. -/
theorem C5_roundtrip_paths :
    parseQuery ".store.book[0]" = .ok pathPlan ∧
    renderQ pathPlan = some ".store.book[0]" ∧
    parseQuery ".a..b[1:2] | [0]" = .ok mixedPlan ∧
    renderQ mixedPlan = some ".a..b[1:2] | [0]" ∧
    parseQuery ".\"a b\"" = .ok (.mapQ "a b") ∧
    renderQ (.mapQ "a b") = some ".a b" ∧
    parseQuery ".a b" = .ok (.mapQ "b") ∧
    (Except.ok (Query.mapQ "b") : Except String Query) ≠ .ok (.mapQ "a b") := by
  refine ⟨rfl, rfl, rfl, rfl, rfl, rfl, rfl, ?_⟩
  intro h
  simp at h

/-! ## C7 — selector grouping: parenthesised groups, mixed and/or -/

/-- Mixing `and` with `or` at one nesting level is the "mixed and|or"
error, whichever order they appear in: the splitting loop of
`tokensToSelector` records the first separator kind and faults on the
first different one.  (Auxiliary to `C7_selector_grouping`; `aOr` is the
already-recorded separator.) -/
theorem splitGroups_mixed_of_or (expr : String) :
    ∀ (ts : List Token) (gs : List (List Token)) (cur : List Token),
      (∃ t ∈ ts, t.cmd = "or") →
      splitGroups expr ts "and" gs cur = .error (mixedMsg expr) := by
  intro ts
  induction ts with
  | nil => intro gs cur h; simp at h
  | cons t rest ih =>
    intro gs cur h
    obtain ⟨u, hu, hcmd⟩ := h
    by_cases h1 : t.cmd = "and"
    · have : u ∈ rest := by
        cases List.mem_cons.mp hu with
        | inl he => exact absurd (he ▸ hcmd) (by simp [h1])
        | inr hr => exact hr
      simp [splitGroups, h1]
      exact ih _ _ ⟨u, this, hcmd⟩
    · by_cases h2 : t.cmd = "or"
      · simp [splitGroups, h2]
      · have : u ∈ rest := by
          cases List.mem_cons.mp hu with
          | inl he => exact absurd (he ▸ hcmd) h2
          | inr hr => exact hr
        by_cases h3 : t.cmd = "("
        · simp [splitGroups, h1, h2, h3]
          exact ih _ _ ⟨u, this, hcmd⟩
        · simp [splitGroups, h1, h2, h3]
          exact ih _ _ ⟨u, this, hcmd⟩

/-- Symmetric auxiliary: `or` recorded, an `and` ahead. -/
theorem splitGroups_mixed_of_and (expr : String) :
    ∀ (ts : List Token) (gs : List (List Token)) (cur : List Token),
      (∃ t ∈ ts, t.cmd = "and") →
      splitGroups expr ts "or" gs cur = .error (mixedMsg expr) := by
  intro ts
  induction ts with
  | nil => intro gs cur h; simp at h
  | cons t rest ih =>
    intro gs cur h
    obtain ⟨u, hu, hcmd⟩ := h
    by_cases h1 : t.cmd = "and"
    · simp [splitGroups, h1]
    · have : u ∈ rest := by
        cases List.mem_cons.mp hu with
        | inl he => exact absurd (he ▸ hcmd) h1
        | inr hr => exact hr
      by_cases h2 : t.cmd = "or"
      · simp [splitGroups, h2]
        exact ih _ _ ⟨u, this, hcmd⟩
      · by_cases h3 : t.cmd = "("
        · simp [splitGroups, h1, h2, h3]
          exact ih _ _ ⟨u, this, hcmd⟩
        · simp [splitGroups, h1, h2, h3]
          exact ih _ _ ⟨u, this, hcmd⟩

/-- The plan of `[(.a=="x" or .a=="y") and .b<=1]`. -/
def parenPlan : Query := .select (some (.and [
  .or [.cmp (.mapQ "a") "==" (.value (.str "x")),
       .cmp (.mapQ "a") "==" (.value (.str "y"))],
  .cmp (.mapQ "b") "<=" (.value (.num (.fin 1)))]))

/-- Starting from the initial empty separator, a token list containing both
an `and` and an `or` faults with the "mixed and|or" error. -/
theorem splitGroups_mixed_of_empty (expr : String) :
    ∀ (ts : List Token) (gs : List (List Token)) (cur : List Token),
      (∃ t ∈ ts, t.cmd = "and") → (∃ t ∈ ts, t.cmd = "or") →
      splitGroups expr ts "" gs cur = .error (mixedMsg expr) := by
  intro ts
  induction ts with
  | nil => intro gs cur h _; simp at h
  | cons t rest ih =>
    intro gs cur hand hor
    obtain ⟨ua, hua, hca⟩ := hand
    obtain ⟨uo, huo, hco⟩ := hor
    by_cases h1 : t.cmd = "and"
    · have ho : uo ∈ rest := by
        cases List.mem_cons.mp huo with
        | inl he => exact absurd (he ▸ hco) (by simp [h1])
        | inr hr => exact hr
      simp [splitGroups, h1]
      exact splitGroups_mixed_of_or expr rest _ _ ⟨uo, ho, hco⟩
    · by_cases h2 : t.cmd = "or"
      · have ha : ua ∈ rest := by
          cases List.mem_cons.mp hua with
          | inl he => exact absurd (he ▸ hca) (by simp [h2])
          | inr hr => exact hr
        simp [splitGroups, h2]
        exact splitGroups_mixed_of_and expr rest _ _ ⟨ua, ha, hca⟩
      · have ha : ua ∈ rest := by
          cases List.mem_cons.mp hua with
          | inl he => exact absurd (he ▸ hca) h1
          | inr hr => exact hr
        have ho : uo ∈ rest := by
          cases List.mem_cons.mp huo with
          | inl he => exact absurd (he ▸ hco) h2
          | inr hr => exact hr
        by_cases h3 : t.cmd = "("
        · simp [splitGroups, h1, h2, h3]
          exact ih _ _ ⟨ua, ha, hca⟩ ⟨uo, ho, hco⟩
        · simp [splitGroups, h1, h2, h3]
          exact ih _ _ ⟨ua, ha, hca⟩ ⟨uo, ho, hco⟩

/-- C7: a bracket body with both `and` and `or` at one level is the
"mixed and|or" parse error whatever comes first (general statement over
the splitting loop, starting from the initial empty separator), the claim's
parenthesised example parses with the `Or` group folded in as one operand
of the `And`, and the claim's unparenthesised mixed example fails. -/
theorem C7_selector_grouping (expr : String) (ts : List Token)
    (gs : List (List Token)) (cur : List Token)
    (hand : ∃ t ∈ ts, t.cmd = "and") (hor : ∃ t ∈ ts, t.cmd = "or") :
    splitGroups expr ts "" gs cur = .error (mixedMsg expr) ∧
    parseQuery "[(.a==\"x\" or .a==\"y\") and .b<=1]" = .ok parenPlan ∧
    parseQuery "[.a==\"x\" and .a==\"y\" or .b<=1]" =
      .error (mixedMsg "[.a==\"x\" and .a==\"y\" or .b<=1]") :=
  ⟨splitGroups_mixed_of_empty expr ts gs cur hand hor, rfl, rfl⟩

/-- C7, witness: two bare separator tokens of each kind mix, whatever the
surrounding expression text. -/
theorem C7_witness :
    splitGroups "e" [Token.mk "and" false "" [], Token.mk "or" false "" []]
      "" [] [] = .error (mixedMsg "e") ∧
    parseQuery "[(.a==\"x\" or .a==\"y\") and .b<=1]" = .ok parenPlan :=
  ⟨(C7_selector_grouping "e"
      [Token.mk "and" false "" [], Token.mk "or" false "" []] [] []
      ⟨Token.mk "and" false "" [], List.mem_cons_self _ _, rfl⟩
      ⟨Token.mk "or" false "" [],
        List.mem_cons_of_mem _ (List.mem_cons_self _ _), rfl⟩).1,
   (C7_selector_grouping "e"
      [Token.mk "and" false "" [], Token.mk "or" false "" []] [] []
      ⟨Token.mk "and" false "" [], List.mem_cons_self _ _, rfl⟩
      ⟨Token.mk "or" false "" [],
        List.mem_cons_of_mem _ (List.mem_cons_self _ _), rfl⟩).2.1⟩

/-! ## C8, C9 — the edit engine: container synthesis, holder invisibility -/

mutual
/-- `unholdArray` is the identity on holder-free nodes. -/
theorem unholdN_id : ∀ (n : Node), holderFree n = true → unholdN n = n
  | .array xs, h => by
      rw [unholdN, unholdL_id xs (by simpa [holderFree] using h)]
  | .holder _, h => by simp [holderFree] at h
  | .map es, h => by
      rw [unholdN, unholdM_id es (by simpa [holderFree] using h)]
  | .str _, _ => rfl
  | .bool _, _ => rfl
  | .num _, _ => rfl
  | .nil, _ => rfl

/-- Elementwise version of `unholdN_id`. -/
theorem unholdL_id : ∀ (xs : List (Option Node)), holderFreeL xs = true →
    unholdL xs = xs
  | [], _ => rfl
  | none :: r, h => by
      rw [unholdL, unholdL_id r (by simpa [holderFreeL] using h)]
  | some v :: r, h => by
      have h' : holderFree v = true ∧ holderFreeL r = true := by
        simpa [holderFreeL, Bool.and_eq_true] using h
      rw [unholdL, unholdN_id v h'.1, unholdL_id r h'.2]

/-- Valuewise version of `unholdN_id`. -/
theorem unholdM_id : ∀ (es : List (String × Option Node)),
    holderFreeM es = true → unholdM es = es
  | [], _ => rfl
  | (k, none) :: r, h => by
      rw [unholdM, unholdM_id r (by simpa [holderFreeM] using h)]
  | (k, some v) :: r, h => by
      have h' : holderFree v = true ∧ holderFreeM r = true := by
        simpa [holderFreeM, Bool.and_eq_true] using h
      rw [unholdM, unholdN_id v h'.1, unholdM_id r h'.2]
end

mutual
/-- After `unholdArray` no holder remains. -/
theorem holderFree_unholdN : ∀ (n : Node), holderFree (unholdN n) = true
  | .array xs => by rw [unholdN, holderFree]; exact holderFree_unholdL xs
  | .holder xs => by rw [unholdN, holderFree]; exact holderFree_unholdL xs
  | .map es => by rw [unholdN, holderFree]; exact holderFree_unholdM es
  | .str _ => rfl
  | .bool _ => rfl
  | .num _ => rfl
  | .nil => rfl

/-- Elementwise version of `holderFree_unholdN`. -/
theorem holderFree_unholdL : ∀ (xs : List (Option Node)),
    holderFreeL (unholdL xs) = true
  | [] => rfl
  | none :: r => by rw [unholdL, holderFreeL]; exact holderFree_unholdL r
  | some v :: r => by
      rw [unholdL, holderFreeL, holderFree_unholdN v, holderFree_unholdL r]; rfl

/-- Valuewise version of `holderFree_unholdN`. -/
theorem holderFree_unholdM : ∀ (es : List (String × Option Node)),
    holderFreeM (unholdM es) = true
  | [] => rfl
  | (k, none) :: r => by rw [unholdM, holderFreeM]; exact holderFree_unholdM r
  | (k, some v) :: r => by
      rw [unholdM, holderFreeM, holderFree_unholdN v, holderFree_unholdM r]; rfl
end

mutual
/-- `unholdArray` undoes `holdArray` on a holder-free tree. -/
theorem unhold_holdN : ∀ (n : Node), holderFree n = true →
    unholdN (holdN n) = n
  | .array xs, h => by
      rw [holdN, unholdN, unhold_holdL xs (by simpa [holderFree] using h)]
  | .holder _, h => by simp [holderFree] at h
  | .map es, h => by
      rw [holdN, unholdN, unhold_holdM es (by simpa [holderFree] using h)]
  | .str _, _ => rfl
  | .bool _, _ => rfl
  | .num _, _ => rfl
  | .nil, _ => rfl

/-- Elementwise version of `unhold_holdN`. -/
theorem unhold_holdL : ∀ (xs : List (Option Node)), holderFreeL xs = true →
    unholdL (holdL xs) = xs
  | [], _ => rfl
  | none :: r, h => by
      rw [holdL, unholdL, unhold_holdL r (by simpa [holderFreeL] using h)]
  | some v :: r, h => by
      have h' : holderFree v = true ∧ holderFreeL r = true := by
        simpa [holderFreeL, Bool.and_eq_true] using h
      rw [holdL, unholdL, unhold_holdN v h'.1, unhold_holdL r h'.2]

/-- Valuewise version of `unhold_holdN`. -/
theorem unhold_holdM : ∀ (es : List (String × Option Node)),
    holderFreeM es = true → unholdM (holdM es) = es
  | [], _ => rfl
  | (k, none) :: r, h => by
      rw [holdM, unholdM, unhold_holdM r (by simpa [holderFreeM] using h)]
  | (k, some v) :: r, h => by
      have h' : holderFree v = true ∧ holderFreeM r = true := by
        simpa [holderFreeM, Bool.and_eq_true] using h
      rw [holdM, unholdM, unhold_holdN v h'.1, unhold_holdM r h'.2]
end

/-- C8: the edit engine synthesizes missing intermediate containers on
demand.  For a two-step `MapQuery` path `.k1.k2 = v` on the empty map, the
first step yields no match, the next step is a `MapQuery`, so an empty
`Map` is synthesized under `k1`, set, and the step re-executed — the result
is `{k1:{k2:v}}`; running the identical edit a second time leaves the tree
unchanged.  (`v` holder-free: the stored value is as the caller supplied
it, not an internal holder.) -/
theorem C8_container_synthesis (k1 k2 : String) (v : Node)
    (hv : holderFree v = true) :
    editSet [.mkey k1, .mkey k2] (.map []) v
      = .ok (.map [(k1, some (.map [(k2, some v)]))]) ∧
    editSet [.mkey k1, .mkey k2] (.map [(k1, some (.map [(k2, some v)]))]) v
      = .ok (.map [(k1, some (.map [(k2, some v)]))]) := by
  have huv : unholdN v = v := unholdN_id v hv
  have hgl : [PStep.mkey k1, PStep.mkey k2].getLast! = PStep.mkey k2 := rfl
  constructor
  · simp [editSet, execForEditP, feStep, stepExec, stepSet, stepSetNode,
      nodeAt, editFinal, replaceAt, mapHas, mapToKey, lookupS, mapSetS,
      setEntryM, unholdN, unholdM, unholdL, holdN, holdM, huv, Node.isValue,
      Except.bind, bind, pure, Except.pure, Option.isSome, hgl]
  · simp [editSet, execForEditP, feStep, stepExec, stepSet, stepSetNode,
      nodeAt, editFinal, replaceAt, mapHas, mapToKey, lookupS, mapSetS,
      setEntryM, unholdN, unholdM, unholdL, holdN, holdM, huv, Node.isValue,
      Except.bind, bind, pure, Except.pure, Option.isSome, hgl]

/-- C9: the `arrayHolder` boxing is invisible after `Edit`.  Every tree an
edit returns is holder-free (the engine unholds on the way out, and
`unholdArray` leaves no holder behind — the same final `unholdArray` runs
on the error path, where the Go code hands the caller the mutated root),
and on holder-free trees `unholdArray` exactly undoes `holdArray`, so the
boxing changes nothing the caller can observe. -/
theorem C9_holder_invisible :
    (∀ (steps : List PStep) (root v out : Node),
        editSet steps root v = .ok out → holderFree out = true) ∧
    (∀ (n : Node), holderFree n = true → unholdN (holdN n) = n) := by
  constructor
  · intro steps root v out h
    cases steps with
    | nil =>
      simp only [editSet] at h
      cases h
      exact holderFree_unholdN _
    | cons s ss =>
      simp only [editSet] at h
      cases h1 : (if (s :: ss).length > 1
          then execForEditP (s :: ss) (holdN root) [[]]
          else pure (holdN root, [[]]) :
          Except String (Node × List (List PKey))) with
      | error e => rw [h1] at h; simp [Except.bind, bind] at h
      | ok pr =>
        rw [h1] at h
        obtain ⟨held, nn⟩ := pr
        cases h2 : editFinal ((s :: ss).getLast!) v held nn with
        | error e => simp [Except.bind, bind, h2] at h
        | ok final =>
          simp [Except.bind, bind, h2, pure, Except.pure] at h
          cases h
          exact holderFree_unholdN _
  · exact unhold_holdN

/-- C8, witness at the claim's own example: `.store.book = {}` on `{}`
builds `{"store":{"book":{}}}` and is idempotent. -/
theorem C8_witness :
    holderFree (Node.map []) = true ∧
    editSet [.mkey "store", .mkey "book"] (.map []) (.map [])
      = .ok (.map [("store", some (.map [("book", some (.map []))]))]) ∧
    editSet [.mkey "store", .mkey "book"]
      (.map [("store", some (.map [("book", some (.map []))]))]) (.map [])
      = .ok (.map [("store", some (.map [("book", some (.map []))]))]) :=
  ⟨rfl, (C8_container_synthesis "store" "book" (.map []) rfl).1,
    (C8_container_synthesis "store" "book" (.map []) rfl).2⟩

/-- C9, witness: a concrete edit result is holder-free, and hold/unhold
round-trips on a concrete holder-free array. -/
theorem C9_witness :
    editSet [.mkey "k"] (.map []) (.array [])
      = .ok (.map [("k", some (.array []))]) ∧
    holderFree (Node.map [("k", some (.array []))]) = true ∧
    holderFree (Node.array [some (Node.str "a")]) = true ∧
    unholdN (holdN (Node.array [some (Node.str "a")]))
      = Node.array [some (Node.str "a")] :=
  ⟨rfl,
   C9_holder_invisible.1 [.mkey "k"] (.map []) (.array []) _ rfl,
   rfl,
   C9_holder_invisible.2 (Node.array [some (Node.str "a")]) rfl⟩

/-! ## C10 — `tokenizeQuery` errors exactly on bracket imbalance -/

/-- Spec-side predicate (C10): scanning the raw tokens left to right with a
stack of open brackets, every closing bracket matches the innermost open one
and nothing stays open at the end. -/
def bracketBalanced : List RawTok → List String → Bool
  | [], stk => stk.isEmpty
  | .quo _ :: rest, stk => bracketBalanced rest stk
  | .word _ :: rest, stk => bracketBalanced rest stk
  | .cmd c :: rest, stk =>
    if c = "]" ∨ c = ")" then
      match stk with
      | [] => false
      | f :: up =>
        if (c = "]" ∧ f = "[") ∨ (c = ")" ∧ f = "(") then
          bracketBalanced rest up
        else false
    else if c = "[" ∨ c = "(" then bracketBalanced rest (c :: stk)
    else bracketBalanced rest stk

/-- Success as a boolean. -/
def exceptIsOk : Except String Token → Bool
  | .ok _ => true
  | .error _ => false

/-- `build` succeeds exactly when the brackets balance, and every failure is
one of the two bracket messages. -/
theorem build_balanced (expr : String) :
    ∀ (toks : List RawTok) (front : List (String × List Token))
      (last : List Token),
      (∀ f ∈ front, f.1 = "[" ∨ f.1 = "(") →
      (exceptIsOk (build expr toks (front ++ [("", last)]))
          = bracketBalanced toks (front.map Prod.fst)) ∧
      (∀ e, build expr toks (front ++ [("", last)]) = .error e →
          e = noLeftMsg expr ∨ e = noRightMsg expr) := by
  intro toks
  induction toks with
  | nil =>
    intro front last hf
    cases front with
    | nil =>
      exact ⟨rfl, fun e he => absurd he (by simp [build])⟩
    | cons f up =>
      cases up with
      | nil => exact ⟨rfl, fun e he => Or.inr (Except.error.inj he).symm⟩
      | cons g up2 => exact ⟨rfl, fun e he => Or.inr (Except.error.inj he).symm⟩
  | cons t rest ih =>
    intro front last hf
    cases t with
    | quo s =>
      cases front with
      | nil =>
        by_cases hs : s = ""
        · subst hs
          simpa [build, bracketBalanced] using
            ih [] (last ++ [Token.mk "" false "" []]) (by simp)
        · simpa [build, bracketBalanced, hs] using
            ih [] (mergeValue last true s) (by simp)
      | cons f up =>
        obtain ⟨fc, fk⟩ := f
        have hfc := hf (fc, fk) (List.mem_cons_self _ _)
        have hup2 : ∀ g ∈ up, g.1 = "[" ∨ g.1 = "(" :=
          fun g hg => hf g (List.mem_cons_of_mem _ hg)
        by_cases hs : s = ""
        · subst hs
          simpa [build, bracketBalanced] using
            ih ((fc, fk ++ [Token.mk "" false "" []]) :: up) last (by
              intro g hg
              rcases List.mem_cons.mp hg with h1 | h2
              · rw [h1]; exact hfc
              · exact hup2 g h2)
        · simpa [build, bracketBalanced, hs] using
            ih ((fc, mergeValue fk true s) :: up) last (by
              intro g hg
              rcases List.mem_cons.mp hg with h1 | h2
              · rw [h1]; exact hfc
              · exact hup2 g h2)
    | word w =>
      cases front with
      | nil =>
        simpa [build, bracketBalanced] using
          ih [] (mergeValue last false w) (by simp)
      | cons f up =>
        obtain ⟨fc, fk⟩ := f
        have hfc := hf (fc, fk) (List.mem_cons_self _ _)
        have hup2 : ∀ g ∈ up, g.1 = "[" ∨ g.1 = "(" :=
          fun g hg => hf g (List.mem_cons_of_mem _ hg)
        simpa [build, bracketBalanced] using
          ih ((fc, mergeValue fk false w) :: up) last (by
            intro g hg
            rcases List.mem_cons.mp hg with h1 | h2
            · rw [h1]; exact hfc
            · exact hup2 g h2)
    | cmd c =>
      by_cases hc1 : c = "]"
      · subst hc1
        cases front with
        | nil =>
          refine ⟨by simp [build, bracketBalanced, exceptIsOk], ?_⟩
          intro e he
          left
          simp [build] at he
          exact he.symm
        | cons f up =>
          obtain ⟨fc, fk⟩ := f
          have hfc := hf (fc, fk) (List.mem_cons_self _ _)
          have hup2 : ∀ g ∈ up, g.1 = "[" ∨ g.1 = "(" :=
            fun g hg => hf g (List.mem_cons_of_mem _ hg)
          rcases hfc with h | h
          · subst h
            cases up with
            | nil =>
              simpa [build, bracketBalanced] using
                ih [] (last ++ [Token.mk "[" false "" fk]) (by simp)
            | cons g up2 =>
              obtain ⟨gc, gk⟩ := g
              have hgc := hup2 (gc, gk) (List.mem_cons_self _ _)
              simpa [build, bracketBalanced] using
                ih ((gc, gk ++ [Token.mk "[" false "" fk]) :: up2) last (by
                  intro x hx
                  rcases List.mem_cons.mp hx with h1 | h2
                  · rw [h1]; exact hgc
                  · exact hup2 x (List.mem_cons_of_mem _ h2))
          · subst h
            refine ⟨by simp [build, bracketBalanced, exceptIsOk], ?_⟩
            intro e he
            left
            simp [build] at he
            exact he.symm
      · by_cases hc2 : c = ")"
        · subst hc2
          cases front with
          | nil =>
            refine ⟨by simp [build, bracketBalanced, exceptIsOk], ?_⟩
            intro e he
            left
            simp [build] at he
            exact he.symm
          | cons f up =>
            obtain ⟨fc, fk⟩ := f
            have hfc := hf (fc, fk) (List.mem_cons_self _ _)
            have hup2 : ∀ g ∈ up, g.1 = "[" ∨ g.1 = "(" :=
              fun g hg => hf g (List.mem_cons_of_mem _ hg)
            rcases hfc with h | h
            · subst h
              refine ⟨by simp [build, bracketBalanced, exceptIsOk], ?_⟩
              intro e he
              left
              simp [build] at he
              exact he.symm
            · subst h
              cases up with
              | nil =>
                simpa [build, bracketBalanced] using
                  ih [] (last ++ [Token.mk "(" false "" fk]) (by simp)
              | cons g up2 =>
                obtain ⟨gc, gk⟩ := g
                have hgc := hup2 (gc, gk) (List.mem_cons_self _ _)
                simpa [build, bracketBalanced] using
                  ih ((gc, gk ++ [Token.mk "(" false "" fk]) :: up2) last (by
                    intro x hx
                    rcases List.mem_cons.mp hx with h1 | h2
                    · rw [h1]; exact hgc
                    · exact hup2 x (List.mem_cons_of_mem _ h2))
        · by_cases hc3 : c = "["
          · subst hc3
            cases front with
            | nil =>
              simpa [build, bracketBalanced] using
                ih [("[", [])] last (by simp)
            | cons f up =>
              obtain ⟨fc, fk⟩ := f
              have hfc := hf (fc, fk) (List.mem_cons_self _ _)
              have hup2 : ∀ g ∈ up, g.1 = "[" ∨ g.1 = "(" :=
                fun g hg => hf g (List.mem_cons_of_mem _ hg)
              simpa [build, bracketBalanced] using
                ih (("[", []) :: (fc, fk) :: up) last (by
                  intro x hx
                  rcases List.mem_cons.mp hx with h1 | h2
                  · rw [h1]; simp
                  · rcases List.mem_cons.mp h2 with h3 | h4
                    · rw [h3]; exact hfc
                    · exact hup2 x h4)
          · by_cases hc4 : c = "("
            · subst hc4
              cases front with
              | nil =>
                simpa [build, bracketBalanced] using
                  ih [("(", [])] last (by simp)
              | cons f up =>
                obtain ⟨fc, fk⟩ := f
                have hfc := hf (fc, fk) (List.mem_cons_self _ _)
                have hup2 : ∀ g ∈ up, g.1 = "[" ∨ g.1 = "(" :=
                  fun g hg => hf g (List.mem_cons_of_mem _ hg)
                simpa [build, bracketBalanced] using
                  ih (("(", []) :: (fc, fk) :: up) last (by
                    intro x hx
                    rcases List.mem_cons.mp hx with h1 | h2
                    · rw [h1]; simp
                    · rcases List.mem_cons.mp h2 with h3 | h4
                      · rw [h3]; exact hfc
                      · exact hup2 x h4)
            · cases front with
              | nil =>
                simpa [build, bracketBalanced, hc1, hc2, hc3, hc4] using
                  ih [] (last ++ [Token.mk c false "" []]) (by simp)
              | cons f up =>
                obtain ⟨fc, fk⟩ := f
                have hfc := hf (fc, fk) (List.mem_cons_self _ _)
                have hup2 : ∀ g ∈ up, g.1 = "[" ∨ g.1 = "(" :=
                  fun g hg => hf g (List.mem_cons_of_mem _ hg)
                simpa [build, bracketBalanced, hc1, hc2, hc3, hc4] using
                  ih ((fc, fk ++ [Token.mk c false "" []]) :: up) last (by
                    intro g hg
                    rcases List.mem_cons.mp hg with h1 | h2
                    · rw [h1]; exact hfc
                    · exact hup2 g h2)

/-- C10: `tokenizeQuery` errors exactly on bracket imbalance.  Its success
is equivalent to the balance of the `[ ] ( )` tokens among the scanned
matches — every input character the token pattern does not match
(whitespace, `~`, `=`, `#`, ...) is dropped by the scan and can never cause
an error — and every error it returns is either the "no left bracket" or
the "no right brackets" message. -/
theorem C10_tokenizer_bracket_errors (s : String) :
    (exceptIsOk (tokenizeQuery s) = bracketBalanced (scan s.data) []) ∧
    (∀ e, tokenizeQuery s = .error e →
        e = noLeftMsg s ∨ e = noRightMsg s) := by
  have h := build_balanced s (scan s.data) [] [] (by simp)
  simpa [tokenizeQuery] using h

/-- C10, witness at `"]"`: an unmatched closing bracket is the "no left
bracket" error, matching the dichotomy. -/
theorem C10_witness :
    (exceptIsOk (tokenizeQuery "]") = bracketBalanced (scan "]".data) []) ∧
    tokenizeQuery "]" = .error (noLeftMsg "]") ∧
    (noLeftMsg "]" = noLeftMsg "]" ∨ noLeftMsg "]" = noRightMsg "]") :=
  ⟨(C10_tokenizer_bracket_errors "]").1, rfl,
   (C10_tokenizer_bracket_errors "]").2 (noLeftMsg "]") rfl⟩

end tree
